import Mathlib

/-!
Verification of the dependency resolver and activity renderer of
`gen_adf_doc.py` (Azure Data Factory documentation generator).

The Python source works on parsed-JSON dictionaries.  The shallow embedding
below represents one activity record as a structured value: mandatory `name`,
and the optional fields the script reads (`description`, `type`, `dependsOn`,
`userProperties`, `typeProperties`).  Python dicts (insertion ordered since
3.7) are embedded as association lists with first-occurrence key positions;
`defaultdict(list)` becomes an association list with append-at-key;
`collections.deque` used FIFO becomes a list.  Machine integers of the
in-degree counters are plain `Int` (Python ints are unbounded).  Code that can
raise (`KeyError` lookups, `"ifTrueActivities" in None`) is embedded in
`Except String`.
-/

/-- A generic parsed-JSON value (no floats appear in any property we verify).
Scalar payloads keep Python `str()` rendering via `pyStr`. -/
inductive Json where
  | str (s : String)
  | int (n : Int)
  | bool (b : Bool)
  | null
  | arr (items : List Json)
  | obj (fields : List (String × Json))
deriving Repr

/-- One `dependsOn` entry: `{"activity": ..., "dependencyConditions": [...]}`. -/
structure Dep where
  activity : String
  dependencyConditions : List String
deriving Repr

mutual
/-- One activity record of a pipeline scope.  `name` is mandatory (the script
indexes `activity["name"]` unconditionally); every other field is read with
`.get` or guarded by a key test, hence optional. -/
inductive Activity where
  | mk (name : String) (description : Option String) (type : Option String)
      (dependsOn : Option (List Dep)) (userProperties : Option Json)
      (typeProperties : Option (List (String × TPVal))) : Activity

/-- A value stored under a key of `typeProperties`: either a generic JSON
value, a nested activity list (the container payloads `ifTrueActivities`,
`ifFalseActivities`, `activities`), or a list of switch cases (`cases`). -/
inductive TPVal where
  | plain (j : Json) : TPVal
  | activities (acts : List Activity) : TPVal
  | cases (cs : List SwitchCase) : TPVal

/-- One switch case: `{"value": ..., "activities": [...]}`, both read with
`.get`. -/
inductive SwitchCase where
  | mk (value : Option String) (activities : Option (List Activity)) : SwitchCase
end

def Activity.name : Activity → String
  | .mk n _ _ _ _ _ => n

def Activity.description : Activity → Option String
  | .mk _ d _ _ _ _ => d

def Activity.type : Activity → Option String
  | .mk _ _ t _ _ _ => t

def Activity.dependsOn : Activity → Option (List Dep)
  | .mk _ _ _ dep _ _ => dep

def Activity.userProperties : Activity → Option Json
  | .mk _ _ _ _ up _ => up

def Activity.typeProperties : Activity → Option (List (String × TPVal))
  | .mk _ _ _ _ _ tp => tp

def SwitchCase.value : SwitchCase → Option String
  | .mk v _ => v

def SwitchCase.activities : SwitchCase → Option (List Activity)
  | .mk _ a => a

/-! ## Python dictionary embedding

Dicts are insertion-ordered association lists.  All keys are strings and the
scripts build them with unique keys, so first-match lookup is exact. -/

/-- `d[k]` / `d.get(k)`: the value at the first matching key. -/
def pyGet {α : Type} (k : String) : List (String × α) → Option α
  | [] => none
  | (k', v) :: rest => if k = k' then some v else pyGet k rest

/-- `d[k] = v` on an insertion-ordered dict: overwrite in place if the key is
present, append at the end otherwise. -/
def pySet {α : Type} (d : List (String × α)) (k : String) (v : α) :
    List (String × α) :=
  match d with
  | [] => [(k, v)]
  | (k', v') :: rest =>
      if k' = k then (k, v) :: rest else (k', v') :: pySet rest k v

/-- `in_degree[k] += delta` (the key is always present when the script runs
this; on an absent key the embedding is a no-op, an unreachable case). -/
def dictAdd (d : List (String × Int)) (k : String) (delta : Int) :
    List (String × Int) :=
  d.map (fun kv => if kv.1 = k then (kv.1, kv.2 + delta) else kv)

/-- `graph[k].append(v)` on a `defaultdict(list)`. -/
def graphAdd (g : List (String × List String)) (k : String) (v : String) :
    List (String × List String) :=
  match g with
  | [] => [(k, [v])]
  | (k', l) :: rest =>
      if k' = k then (k', l ++ [v]) :: rest else (k', l) :: graphAdd rest k v

/-- `graph[k]` on a `defaultdict(list)`: the empty list when the key is absent
(the defaultdict's insertion of the fresh key is unobservable: the graph is
only ever indexed, never iterated). -/
def graphGet (g : List (String × List String)) (k : String) : List String :=
  (pyGet k g).getD []

/-! ## The dependency resolver (`topological_sort`, lines 50-74) -/

/-- The upstream names listed by one activity (`dependency["activity"]` for
each entry of its `dependsOn`, in order; an absent `dependsOn` key lists
nothing). -/
def depNames (a : Activity) : List String :=
  (a.dependsOn.getD []).map Dep.activity

/-- All names of a scope, in order (`activity["name"]`). -/
def actNames (acts : List Activity) : List String :=
  acts.map Activity.name

/-- All dependency edges of a scope in build order, as pairs
`(upstream name, downstream activity name)`. -/
def entries : List Activity → List (String × String)
  | [] => []
  | a :: rest => (depNames a).map (fun u => (u, a.name)) ++ entries rest

/-- `in_degree = {activity["name"]: 0 for activity in activities}`. -/
def buildInDegree0 (acts : List Activity) : List (String × Int) :=
  acts.foldl (fun d a => pySet d a.name 0) []

/-- The double loop of lines 56-60, building `graph` and bumping `in_degree`
one dependency entry at a time. -/
def buildStep (gd : List (String × List String) × List (String × Int))
    (e : String × String) :
    List (String × List String) × List (String × Int) :=
  (graphAdd gd.1 e.1 e.2, dictAdd gd.2 e.2 1)

/-- Sum of the positive in-degree counters; the termination measure of the
Kahn loop. -/
def posSum (d : List (String × Int)) : Nat :=
  d.foldr (fun kv acc => kv.2.toNat + acc) 0

/-- One body of `for neighbor in graph[node]`: decrement, and enqueue on hit
of zero. -/
def decOne (d : List (String × Int)) (q : List String) (n : String) :
    List (String × Int) × List String :=
  let d2 := dictAdd d n (-1)
  match pyGet n d2 with
  | some v => if v = 0 then (d2, q ++ [n]) else (d2, q)
  | none => (d2, q)

/-- The whole `for neighbor in graph[node]` loop, threading the in-degree
dict and the queue. -/
def processNeighbors (d : List (String × Int)) (q : List String) :
    List String → List (String × Int) × List String
  | [] => (d, q)
  | n :: rest =>
      processNeighbors (decOne d q n).1 (decOne d q n).2 rest

theorem posSum_cons (kv : String × Int) (d : List (String × Int)) :
    posSum (kv :: d) = kv.2.toNat + posSum d := rfl

theorem pyGet_dictAdd (d : List (String × Int)) (k : String) (δ : Int)
    (v : String) :
    pyGet v (dictAdd d k δ) =
      (pyGet v d).map (fun x => if v = k then x + δ else x) := by
  induction d with
  | nil => rfl
  | cons kv rest ih =>
      obtain ⟨k', x⟩ := kv
      simp only [dictAdd, List.map_cons] at ih ⊢
      by_cases h1 : k' = k
      · rw [if_pos h1]
        by_cases h2 : v = k'
        · subst h2
          simp [pyGet, h1]
        · simp only [pyGet, if_neg h2]
          exact ih
      · rw [if_neg h1]
        by_cases h2 : v = k'
        · subst h2
          simp [pyGet, h1]
        · simp only [pyGet, if_neg h2]
          exact ih

theorem posSum_dictAdd_le (d : List (String × Int)) (k : String) :
    posSum (dictAdd d k (-1)) ≤ posSum d := by
  induction d with
  | nil => exact Nat.le_refl _
  | cons kv rest ih =>
      simp only [dictAdd, List.map_cons] at ih ⊢
      by_cases hk : kv.1 = k
      · simp only [hk, if_pos, posSum_cons]
        have : (kv.2 + (-1)).toNat ≤ kv.2.toNat := by omega
        omega
      · simp only [hk, if_neg, not_false_iff, posSum_cons]
        omega

theorem posSum_dictAdd_lt (d : List (String × Int)) (k : String)
    (h : pyGet k d = some 1) :
    posSum (dictAdd d k (-1)) < posSum d := by
  induction d with
  | nil => simp [pyGet] at h
  | cons kv rest ih =>
      obtain ⟨k', x⟩ := kv
      by_cases hk : k = k'
      · subst hk
        simp only [pyGet, if_pos, Option.some.injEq] at h
        subst h
        have hle := posSum_dictAdd_le rest k
        simp only [dictAdd, List.map_cons, if_pos, posSum_cons] at hle ⊢
        omega
      · simp only [pyGet, hk, if_neg, not_false_iff] at h
        have := ih h
        have hk' : ¬ k' = k := fun he => hk he.symm
        simp only [dictAdd, List.map_cons, hk', if_neg, not_false_iff,
          posSum_cons] at this ⊢
        omega

theorem decOne_fst (d : List (String × Int)) (q : List String) (n : String) :
    (decOne d q n).1 = dictAdd d n (-1) := by
  simp only [decOne]
  cases h : pyGet n (dictAdd d n (-1)) with
  | none => rfl
  | some v => by_cases hv : v = 0 <;> simp [hv]

theorem pyGet_eq_one_of_dec_zero (d : List (String × Int)) (n : String)
    (h : pyGet n (dictAdd d n (-1)) = some 0) : pyGet n d = some 1 := by
  rw [pyGet_dictAdd] at h
  cases hd : pyGet n d with
  | none => rw [hd] at h; simp at h
  | some x =>
      rw [hd] at h
      simp only [Option.map_some'] at h
      simp only [if_true, Option.some.injEq] at h
      have : x = 1 := by omega
      rw [this]

theorem decOne_measure (d : List (String × Int)) (q : List String)
    (n : String) :
    (decOne d q n).2.length + posSum (decOne d q n).1 ≤
      q.length + posSum d := by
  simp only [decOne]
  cases h : pyGet n (dictAdd d n (-1)) with
  | none =>
      simpa using Nat.add_le_add_left (posSum_dictAdd_le d n) q.length
  | some v =>
      by_cases hv : v = 0
      · subst hv
        have h1 := pyGet_eq_one_of_dec_zero d n h
        have h2 := posSum_dictAdd_lt d n h1
        simp only [if_pos rfl, if_true, List.length_append, List.length_cons,
          List.length_nil]
        omega
      · simp only [if_neg hv]
        simpa using Nat.add_le_add_left (posSum_dictAdd_le d n) q.length

theorem posSum_processNeighbors_le (ns : List String) :
    ∀ (d : List (String × Int)) (q : List String),
      posSum (processNeighbors d q ns).1 ≤ posSum d := by
  induction ns with
  | nil => intro d q; exact Nat.le_refl _
  | cons n rest ih =>
      intro d q
      calc posSum (processNeighbors (decOne d q n).1 (decOne d q n).2 rest).1
          ≤ posSum (decOne d q n).1 := ih _ _
        _ ≤ posSum d := by rw [decOne_fst]; exact posSum_dictAdd_le d n

theorem processNeighbors_measure (ns : List String) :
    ∀ (d : List (String × Int)) (q : List String),
      (processNeighbors d q ns).2.length + posSum (processNeighbors d q ns).1 ≤
        q.length + posSum d := by
  induction ns with
  | nil => intro d q; exact Nat.le_refl _
  | cons n rest ih =>
      intro d q
      calc (processNeighbors (decOne d q n).1 (decOne d q n).2 rest).2.length +
            posSum (processNeighbors (decOne d q n).1 (decOne d q n).2 rest).1
          ≤ (decOne d q n).2.length + posSum (decOne d q n).1 := ih _ _
        _ ≤ q.length + posSum d := decOne_measure d q n

/-- The `while queue:` loop of lines 66-73: pop the front, emit it, and run
the neighbor loop (which appends newly ready vertices at the back). -/
def kahnLoop (graph : List (String × List String)) :
    List String → List (String × Int) → List String
  | [], _ => []
  | node :: rest, d =>
      node :: kahnLoop graph
        (processNeighbors d rest (graphGet graph node)).2
        (processNeighbors d rest (graphGet graph node)).1
termination_by q d => q.length + 2 * posSum d
decreasing_by
  have h1 := processNeighbors_measure (graphGet graph node) d rest
  have h2 := posSum_processNeighbors_le (graphGet graph node) d rest
  simp only [List.length_cons]
  omega

/-- `topological_sort(activities)` (lines 50-74): returns the emitted names. -/
def topological_sort (activities : List Activity) : List String :=
  let built := (entries activities).foldl buildStep ([], buildInDegree0 activities)
  let graph := built.1
  let in_degree := built.2
  let queue := (in_degree.filter (fun kv => decide (kv.2 = 0))).map Prod.fst
  kahnLoop graph queue in_degree

/-- The list comprehension `[activity_dict[name] for name in ...]` of
line 79: sequential lookups, the first absent key raising `KeyError`. -/
def lookupNames (activity_dict : List (String × Activity)) :
    List String → Except String (List Activity)
  | [] => Except.ok []
  | n :: rest =>
      match pyGet n activity_dict with
      | some a => (lookupNames activity_dict rest).map (fun l => a :: l)
      | none => Except.error ("KeyError: " ++ n)

/-- `sort_activities_by_dependency(activities)` (lines 76-79).  The dict
indexing `activity_dict[name]` can raise `KeyError`, embedded as `Except`. -/
def sort_activities_by_dependency (activities : List Activity) :
    Except String (List Activity) :=
  let activity_dict :=
    activities.foldl (fun d a => pySet d a.name a) []
  let sorted_activity_names := topological_sort activities
  lookupNames activity_dict sorted_activity_names

/-! ## The renderer (`convert_to_nested_table_html`, lines 22-39, and
`generate_activity_html`, lines 81-146) -/

/-- A single-quote character, as used throughout the script's HTML literals. -/
def sglq : String := (Char.ofNat 39).toString

/-- Python `str()` / f-string interpolation of a scalar JSON value (the code
only interpolates values that are not dicts and not lists). -/
def pyStr : Json → String
  | .str s => s
  | .int n => toString n
  | .bool b => if b then "True" else "False"
  | .null => "None"
  | .arr _ => ""
  | .obj _ => ""

/-- f-string interpolation of an optional string (`None` prints as "None"). -/
def optPyStr : Option String → String
  | none => "None"
  | some s => s

/-- Python truthiness of a JSON value (`if user_properties:` etc.). -/
def Json.truthy : Json → Bool
  | .null => false
  | .str s => !s.isEmpty
  | .int n => decide (n ≠ 0)
  | .bool b => b
  | .arr l => !l.isEmpty
  | .obj kvs => !kvs.isEmpty

mutual
/-- `convert_to_nested_table_html(obj, suppress_type_expression=False)`
(lines 22-39).  The `suppress_type_expression` flag is threaded through the
recursion and never read, exactly as in the source. -/
def convert_to_nested_table_html (obj : Json) (suppress_type_expression : Bool) :
    String :=
  "<table class=" ++ sglq ++ "nested-table" ++ sglq ++ ">" ++
  (match obj with
   | .obj kvs => convRows kvs suppress_type_expression
   | .arr items => convItems items 0 suppress_type_expression
   | _ => "") ++ "</table>"

/-- The `for key, value in obj.items()` loop of lines 26-33. -/
def convRows : List (String × Json) → Bool → String
  | [], _ => ""
  | (k, v) :: rest, suppress_type_expression =>
      "<tr>" ++ ("<td>" ++ k ++ "</td>") ++
      (match v with
       | .obj _ => "<td>" ++ convert_to_nested_table_html v suppress_type_expression ++ "</td>"
       | .arr _ => "<td>" ++ convert_to_nested_table_html v suppress_type_expression ++ "</td>"
       | _ => "<td>" ++ pyStr v ++ "</td>") ++
      "</tr>" ++ convRows rest suppress_type_expression

/-- The `for index, item in enumerate(obj)` loop of lines 35-36: every
element, scalar or not, is rendered by the recursive call. -/
def convItems : List Json → Nat → Bool → String
  | [], _, _ => ""
  | item :: rest, index, suppress_type_expression =>
      "<tr><td>Item " ++ toString (index + 1) ++ "</td><td>" ++
      convert_to_nested_table_html item suppress_type_expression ++
      "</td></tr>" ++ convItems rest (index + 1) suppress_type_expression
end

/-- Json view of a `dependsOn` entry dict. -/
def depToJson (d : Dep) : Json :=
  Json.obj [("activity", Json.str d.activity),
    ("dependencyConditions", Json.arr (d.dependencyConditions.map Json.str))]

mutual
/-- Json view of an activity dict, used when `typeProperties` is fed whole to
`convert_to_nested_table_html` (line 121).  The structured embedding fixes a
canonical field order for the keys present; no verified claim observes it. -/
def Activity.toJson : Activity → Json
  | .mk n d t dep up tp =>
      Json.obj ([("name", Json.str n)]
        ++ (match d with | none => [] | some s => [("description", Json.str s)])
        ++ (match t with | none => [] | some s => [("type", Json.str s)])
        ++ (match dep with
            | none => []
            | some l => [("dependsOn", Json.arr (l.map depToJson))])
        ++ (match up with | none => [] | some j => [("userProperties", j)])
        ++ (match tp with
            | none => []
            | some l => [("typeProperties", Json.obj (tpFieldsToJson l))]))

def tpFieldsToJson : List (String × TPVal) → List (String × Json)
  | [] => []
  | (k, v) :: rest => (k, TPVal.toJson v) :: tpFieldsToJson rest

def TPVal.toJson : TPVal → Json
  | .plain j => j
  | .activities l => Json.arr (actsToJson l)
  | .cases cs => Json.arr (casesToJson cs)

def actsToJson : List Activity → List Json
  | [] => []
  | a :: rest => Activity.toJson a :: actsToJson rest

def casesToJson : List SwitchCase → List Json
  | [] => []
  | c :: rest => SwitchCase.toJson c :: casesToJson rest

def SwitchCase.toJson : SwitchCase → Json
  | .mk v acts =>
      Json.obj ((match v with | none => [] | some s => [("value", Json.str s)])
        ++ (match acts with
            | none => []
            | some l => [("activities", Json.arr (actsToJson l))]))
end

/-- Modelled external collaborator: `pandas.DataFrame(...).to_html(index=False)`
(line 117).  An opaque total rendering; no verified claim observes its text. -/
def pandas_to_html (_ : Json) : String :=
  "<table border=" ++ sglq ++ "1" ++ sglq ++ " class=" ++ sglq ++ "dataframe" ++ sglq ++
    "></table>"

/-- The literal list of line 124. -/
def containerTypeNames : List String := ["IfCondition", "ForEach", "Switch"]

/-- `activity_type in ["IfCondition", "ForEach", "Switch"]` — false when the
`type` key is absent (`None in [...]` is `False`). -/
def isContainerType : Option String → Bool
  | some t => decide (t ∈ containerTypeNames)
  | none => false

/-- The header block of lines 94-106 (an f-string; `None` fields print as
"None"). -/
def activityHeader (a : Activity) : String :=
  "\n        <details>\n            <summary><table><tr><td style=\"width: 250px;\">"
  ++ a.name ++ " </td><td>" ++ optPyStr a.description ++
  "</td></tr></table></summary>\n            <table class=" ++ sglq ++
  "activity-table" ++ sglq ++
  ">\n                <tr>\n                    <th>Attribute</th>\n                    <th>Details</th>\n                </tr>\n                <tr>\n                    <td>Type</td>\n                    <td>"
  ++ optPyStr a.type ++ "</td>\n                </tr>\n        "

/-- The `for dependency in depends_on` loop of lines 110-113. -/
def depItems : List Dep → String
  | [] => ""
  | d :: rest =>
      "<li>Activity: " ++ d.activity ++ " (Conditions: " ++
      String.intercalate ", " d.dependencyConditions ++ ")</li>" ++ depItems rest

/-- Lines 108-114 (`if depends_on:` — absent key or empty list renders
nothing). -/
def dependsRow : Option (List Dep) → String
  | none => ""
  | some deps =>
      if deps.isEmpty then ""
      else "<tr><td>Depends On</td><td><ul>" ++ depItems deps ++ "</ul></td></tr>"

/-- Lines 116-118 (`if user_properties:`). -/
def userPropsRow : Option Json → String
  | none => ""
  | some j =>
      if j.truthy
      then "<tr><td>User Properties</td><td>" ++ pandas_to_html j ++ "</td></tr>"
      else ""

/-- Lines 120-122 (`if type_properties:`). -/
def typePropsRow : Option (List (String × TPVal)) → String
  | none => ""
  | some tp =>
      if tp.isEmpty then ""
      else "<tr><td>Type Properties</td><td>" ++
        convert_to_nested_table_html (Json.obj (tpFieldsToJson tp)) false ++
        "</td></tr>"

mutual
/-- `generate_activity_html(activities)` (lines 81-146).  The fuel argument
bounds the recursion depth (the Python recursion is bounded by the nesting
depth of the document); exhausted fuel is an error, so an `ok` result is
always fuel-independent behaviour of the source. -/
def generate_activity_html : Nat → List Activity → Except String String
  | 0, _ => Except.error "RecursionError: maximum recursion depth exceeded"
  | fuel + 1, activities =>
      match sort_activities_by_dependency activities with
      | Except.error e => Except.error e
      | Except.ok sorted_activities => renderSections fuel sorted_activities
termination_by fuel _ => (fuel, 0, 0)

/-- The `for activity in sorted_activities` loop (lines 86-144), accumulating
`html_content`. -/
def renderSections : Nat → List Activity → Except String String
  | _, [] => Except.ok ""
  | fuel, a :: rest =>
      match activitySection fuel a with
      | Except.error e => Except.error e
      | Except.ok s =>
          match renderSections fuel rest with
          | Except.error e => Except.error e
          | Except.ok r => Except.ok (s ++ r)
termination_by fuel l => (fuel, 6, l.length)

/-- One loop body: header, optional rows, container rows, closing tags. -/
def activitySection (fuel : Nat) (a : Activity) : Except String String :=
  match nestedRows fuel a with
  | Except.error e => Except.error e
  | Except.ok nested =>
      Except.ok (activityHeader a ++ dependsRow a.dependsOn ++
        userPropsRow a.userProperties ++ typePropsRow a.typeProperties ++
        nested ++ "</table></details>")
termination_by (fuel, 5, 0)

/-- Lines 124-142: the container block.  Reached for every container-typed
activity; `"ifTrueActivities" in type_properties` raises `TypeError` when
`type_properties` is `None` (the `activity.get` default). -/
def nestedRows (fuel : Nat) (a : Activity) : Except String String :=
  if isContainerType a.type then
    match a.typeProperties with
    | none => Except.error "TypeError: argument of type NoneType is not iterable"
    | some tp =>
        match keyRow fuel tp "ifTrueActivities" "If True Activities" with
        | Except.error e => Except.error e
        | Except.ok s1 =>
            match keyRow fuel tp "ifFalseActivities" "If False Activities" with
            | Except.error e => Except.error e
            | Except.ok s2 =>
                match keyRow fuel tp "activities" "Activities" with
                | Except.error e => Except.error e
                | Except.ok s3 =>
                    match casesRows fuel tp with
                    | Except.error e => Except.error e
                    | Except.ok s4 => Except.ok (s1 ++ s2 ++ s3 ++ s4)
  else Except.ok ""
termination_by (fuel, 4, 0)

/-- One `if <key> in type_properties:` block of lines 125-136: emit a row
wrapping the recursive render of the nested activity list. -/
def keyRow (fuel : Nat) (tp : List (String × TPVal)) (key label : String) :
    Except String String :=
  match pyGet key tp with
  | none => Except.ok ""
  | some (TPVal.activities l) =>
      match generate_activity_html fuel l with
      | Except.error e => Except.error e
      | Except.ok inner =>
          Except.ok ("<tr><td>" ++ label ++ "</td><td>" ++ inner ++ "</td></tr>")
  | some _ => Except.error "TypeError: nested activities value is not a list"
termination_by (fuel, 2, 0)

/-- Lines 137-142: the `cases` block of a Switch. -/
def casesRows (fuel : Nat) (tp : List (String × TPVal)) :
    Except String String :=
  match pyGet "cases" tp with
  | none => Except.ok ""
  | some (TPVal.cases cs) => caseList fuel cs
  | some _ => Except.error "TypeError: cases value is not a list"
termination_by (fuel, 3, 0)

/-- The `for case in type_properties["cases"]` loop (lines 138-142). -/
def caseList : Nat → List SwitchCase → Except String String
  | _, [] => Except.ok ""
  | fuel, c :: rest =>
      match generate_activity_html fuel (c.activities.getD []) with
      | Except.error e => Except.error e
      | Except.ok inner =>
          match caseList fuel rest with
          | Except.error e => Except.error e
          | Except.ok r =>
              Except.ok ("<tr><td>Case: " ++ optPyStr c.value ++ "</td><td>" ++
                inner ++ "</td></tr>" ++ r)
termination_by fuel cs => (fuel, 2, cs.length + 1)
end

/-! ## Concrete inputs used by scenario claims and counterexamples -/

/-- A two-cycle `A <-> B` plus `D` depending on cycle member `A`. -/
def cycleWithDependentInput : List Activity :=
  [Activity.mk "A" none none (some [Dep.mk "B" []]) none none,
   Activity.mk "B" none none (some [Dep.mk "A" []]) none none,
   Activity.mk "D" none none (some [Dep.mk "A" []]) none none]

/-- Two activities, each referencing a distinct absent name. -/
def twoMissingRefsInput : List Activity :=
  [Activity.mk "A" none none (some [Dep.mk "X" []]) none none,
   Activity.mk "B" none none (some [Dep.mk "Y" []]) none none]

/-- The FIFO tie-break scenario input of spec §8.6. -/
def fifoScenarioInput : List Activity :=
  [Activity.mk "C" none none (some [Dep.mk "A" []]) none none,
   Activity.mk "A" none none none none none,
   Activity.mk "B" none none (some [Dep.mk "A" []]) none none]

/-- Claim C3: the resolver is deterministic — resolving the same input
sequence twice yields identical output sequences; in this embedding the
underlying dicts are insertion-ordered (CPython ≥ 3.7), so the output is a
pure function of the input sequence alone. -/
theorem topological_sort_deterministic (acts1 acts2 : List Activity)
    (h : acts1 = acts2) : topological_sort acts1 = topological_sort acts2 := by
  rw [h]

theorem topological_sort_deterministic_witness :
    topological_sort fifoScenarioInput = topological_sort fifoScenarioInput :=
  topological_sort_deterministic fifoScenarioInput fifoScenarioInput rfl

/-- Claim C9: on the scope `[C -> A, A, B -> A]` the resolver returns exactly
`[A, C, B]`: A is the only seed, and the FIFO tie-break on original
declaration order places C before B. -/
theorem fifo_scenario_resolves_acb :
    topological_sort fifoScenarioInput = ["A", "C", "B"] := by
  simp [topological_sort, fifoScenarioInput, entries, buildStep, buildInDegree0,
    depNames, actNames, kahnLoop, processNeighbors, decOne, pyGet, pySet,
    dictAdd, graphAdd, graphGet, posSum, Activity.name, Activity.dependsOn]

/-- Claim C7 (failing input): a container-typed activity with an absent
`typeProperties` field makes the renderer raise — the guard
`if activity_type in [...]` is reached with `type_properties = None` and
`"ifTrueActivities" in None` is a `TypeError`, contradicting the spec's
"absent optional field ... never an error". -/
theorem container_without_typeprops_raises :
    generate_activity_html 1
      [Activity.mk "A" none (some "IfCondition") none none none] =
      Except.error "TypeError: argument of type NoneType is not iterable" := by
  simp [generate_activity_html, sort_activities_by_dependency, lookupNames,
    topological_sort, entries, buildStep, buildInDegree0, depNames, actNames,
    kahnLoop, processNeighbors, decOne, pyGet, pySet, dictAdd, graphAdd,
    graphGet, renderSections, activitySection, nestedRows, isContainerType,
    containerTypeNames, Except.map, Activity.name, Activity.dependsOn,
    Activity.type, Activity.typeProperties]

/-- Claim C4 (counterexample): in `[A -> B, B -> A, D -> A]` the subset
`{A, B}` is a dependency cycle and `D` is outside it, yet the resolver's
output is empty — `D` is dropped too, against the claim that every activity
outside the cycling subset still appears. -/
theorem cycle_drop_counterexample :
    topological_sort cycleWithDependentInput = [] ∧
    "D" ∈ actNames cycleWithDependentInput ∧
    ("B", "A") ∈ entries cycleWithDependentInput ∧
    ("A", "B") ∈ entries cycleWithDependentInput ∧
    depNames (Activity.mk "D" none none (some [Dep.mk "A" []]) none none) =
      ["A"] := by
  refine ⟨?_, by decide, by decide, by decide, by decide⟩
  simp [topological_sort, cycleWithDependentInput, entries, buildStep,
    buildInDegree0, depNames, actNames, kahnLoop, processNeighbors, decOne,
    pyGet, pySet, dictAdd, graphAdd, graphGet, posSum, Activity.name,
    Activity.dependsOn]

/-- Claim C5 (counterexample): in `[A -> X, B -> Y]` (both `X` and `Y`
absent), `B` depends neither on `A` nor on `A`'s missing name `X`, yet the
resolver's output is empty — `B` is dropped, against the claim that every
such unaffected activity still appears. -/
theorem missing_ref_counterexample :
    topological_sort twoMissingRefsInput = [] ∧
    actNames twoMissingRefsInput = ["A", "B"] ∧
    depNames (Activity.mk "B" none none (some [Dep.mk "Y" []]) none none) =
      ["Y"] := by
  refine ⟨?_, by decide, by decide⟩
  simp [topological_sort, twoMissingRefsInput, entries, buildStep,
    buildInDegree0, depNames, actNames, kahnLoop, processNeighbors, decOne,
    pyGet, pySet, dictAdd, graphAdd, graphGet, posSum, Activity.name,
    Activity.dependsOn]

/-- Claim C8 (counterexample): a scalar element of a sequence is passed to
the recursive call, which renders it as an empty nested table — its textual
representation ("5") appears nowhere in the output. -/
theorem scalar_list_item_counterexample :
    convert_to_nested_table_html (Json.arr [Json.int 5]) false =
      "<table class=" ++ sglq ++ "nested-table" ++ sglq ++
        "><tr><td>Item 1</td><td><table class=" ++ sglq ++ "nested-table" ++
        sglq ++ "></table></td></tr></table>" ∧
    Char.ofNat 53 ∉
      (convert_to_nested_table_html (Json.arr [Json.int 5]) false).data := by
  have h : convert_to_nested_table_html (Json.arr [Json.int 5]) false =
      "<table class=" ++ sglq ++ "nested-table" ++ sglq ++
        "><tr><td>Item 1</td><td><table class=" ++ sglq ++ "nested-table" ++
        sglq ++ "></table></td></tr></table>" := by
    simp [convert_to_nested_table_html, convItems, convRows, sglq]
    decide
  exact ⟨h, by rw [h]; decide⟩

/-! ## Characterizing the build phase -/

theorem mem_entries_iff (acts : List Activity) (u v : String) :
    (u, v) ∈ entries acts ↔ ∃ a ∈ acts, a.name = v ∧ u ∈ depNames a := by
  induction acts with
  | nil => simp [entries]
  | cons a rest ih =>
      simp only [entries, List.mem_append, List.mem_map, ih, List.mem_cons]
      constructor
      · rintro (⟨w, hw, he⟩ | ⟨b, hb, hn, hu⟩)
        · exact ⟨a, Or.inl rfl, (Prod.mk.injEq _ _ _ _ ▸ he).2,
            (Prod.mk.injEq _ _ _ _ ▸ he).1 ▸ hw⟩
        · exact ⟨b, Or.inr hb, hn, hu⟩
      · rintro ⟨b, hb | hb, hn, hu⟩
        · subst hb; exact Or.inl ⟨u, hu, by rw [hn]⟩
        · exact Or.inr ⟨b, hb, hn, hu⟩

theorem snd_mem_actNames_of_mem_entries (acts : List Activity)
    (e : String × String) (he : e ∈ entries acts) : e.2 ∈ actNames acts := by
  induction acts with
  | nil => simp [entries] at he
  | cons a rest ih =>
      simp only [entries, List.mem_append, List.mem_map] at he
      rcases he with ⟨w, _, hw⟩ | he
      · simp [actNames, ← hw]
      · simp [actNames]
        rcases ih he with h
        simp [actNames] at h
        exact Or.inr h

theorem pyGet_pySet {α : Type} (d : List (String × α)) (k : String) (x : α)
    (v : String) :
    pyGet v (pySet d k x) = if v = k then some x else pyGet v d := by
  induction d with
  | nil => simp [pySet, pyGet]
  | cons kv rest ih =>
      obtain ⟨k', y⟩ := kv
      by_cases h1 : k' = k
      · subst h1
        by_cases h2 : v = k'
        · subst h2; simp [pySet, pyGet]
        · simp [pySet, pyGet, h2]
      · by_cases h2 : v = k'
        · subst h2
          simp [pySet, pyGet, h1, Ne.symm h1]
        · simp [pySet, pyGet, h1, h2, ih]

theorem keys_pySet {α : Type} (d : List (String × α)) (k : String) (x : α) :
    (pySet d k x).map Prod.fst =
      if k ∈ d.map Prod.fst then d.map Prod.fst else d.map Prod.fst ++ [k] := by
  induction d with
  | nil => simp [pySet]
  | cons kv rest ih =>
      obtain ⟨k', y⟩ := kv
      by_cases h1 : k' = k
      · subst h1; simp [pySet]
      · by_cases h2 : k ∈ rest.map Prod.fst <;>
          simp [pySet, h1, ih, h2, Ne.symm h1]

theorem nodup_keys_pySet {α : Type} (d : List (String × α)) (k : String)
    (x : α) (h : (d.map Prod.fst).Nodup) :
    ((pySet d k x).map Prod.fst).Nodup := by
  rw [keys_pySet]
  by_cases hk : k ∈ d.map Prod.fst
  · simpa [hk]
  · simpa [hk] using List.Nodup.append h (by simp) (by simp [hk, List.disjoint_left])

theorem pyGet_foldl_pySet_zero (l : List Activity) (d0 : List (String × Int))
    (v : String) :
    pyGet v (l.foldl (fun d a => pySet d a.name 0) d0) =
      if v ∈ actNames l then some 0 else pyGet v d0 := by
  induction l generalizing d0 with
  | nil => simp [actNames]
  | cons a rest ih =>
      simp only [List.foldl_cons, ih, actNames, List.map_cons, List.mem_cons]
      by_cases h : v ∈ actNames rest
      · simp [h, actNames] at *
        simp [h]
      · simp [h, actNames] at *
        rw [pyGet_pySet]
        by_cases hv : v = a.name <;> simp [hv]

theorem pyGet_buildInDegree0 (acts : List Activity) (v : String) :
    pyGet v (buildInDegree0 acts) =
      if v ∈ actNames acts then some 0 else none := by
  simpa [buildInDegree0] using pyGet_foldl_pySet_zero acts [] v

theorem nodup_keys_buildInDegree0 (acts : List Activity) :
    ((buildInDegree0 acts).map Prod.fst).Nodup := by
  have : ∀ (l : List Activity) (d0 : List (String × Int)),
      (d0.map Prod.fst).Nodup →
      ((l.foldl (fun d a => pySet d a.name 0) d0).map Prod.fst).Nodup := by
    intro l
    induction l with
    | nil => intro d0 h; exact h
    | cons a rest ih =>
        intro d0 h
        exact ih _ (nodup_keys_pySet d0 a.name 0 h)
  simpa [buildInDegree0] using this acts [] (by simp)

theorem keys_dictAdd (d : List (String × Int)) (k : String) (δ : Int) :
    (dictAdd d k δ).map Prod.fst = d.map Prod.fst := by
  induction d with
  | nil => rfl
  | cons kv rest ih =>
      by_cases h : kv.1 = k <;> simp [dictAdd, h] at ih ⊢ <;> exact ih

theorem graphGet_graphAdd (g : List (String × List String)) (k v u : String) :
    graphGet (graphAdd g k v) u =
      if u = k then graphGet g u ++ [v] else graphGet g u := by
  induction g with
  | nil =>
      by_cases h : u = k <;> simp [graphAdd, graphGet, pyGet, h]
  | cons kv rest ih =>
      obtain ⟨k', l⟩ := kv
      by_cases h1 : k' = k
      · subst h1
        by_cases h2 : u = k'
        · subst h2; simp [graphAdd, graphGet, pyGet]
        · simp [graphAdd, graphGet, pyGet, h2]
      · by_cases h2 : u = k'
        · subst h2; simp [graphAdd, graphGet, pyGet, h1, Ne.symm h1]
        · simp only [graphAdd, h1, if_neg, not_false_iff, graphGet, pyGet,
            h2] at ih ⊢
          exact ih

theorem graphGet_foldl_graphAdd (l : List (String × String))
    (g0 : List (String × List String)) (u : String) :
    graphGet (l.foldl (fun g e => graphAdd g e.1 e.2) g0) u =
      graphGet g0 u ++ (l.filter (fun e => decide (e.1 = u))).map Prod.snd := by
  induction l generalizing g0 with
  | nil => simp
  | cons e rest ih =>
      simp only [List.foldl_cons, ih, graphGet_graphAdd]
      by_cases h : u = e.1
      · simp [h, List.filter_cons]
      · have : ¬ e.1 = u := fun hh => h hh.symm
        simp [h, this, List.filter_cons]

/-- The number of dependency entries of `l` pointing at `v` whose upstream is
outside `out`: the value of the in-degree counter of `v` after the vertices
of `out` have been popped. -/
def unemit (E : List (String × String)) (out : List String) (v : String) :
    Nat :=
  E.countP (fun e => decide (e.2 = v) && decide (e.1 ∉ out))

/-- Total number of dependency entries pointing at `v`. -/
def countTo (E : List (String × String)) (v : String) : Nat :=
  E.countP (fun e => decide (e.2 = v))

theorem unemit_nil_out (E : List (String × String)) (v : String) :
    unemit E [] v = countTo E v := by
  simp [unemit, countTo]

theorem pyGet_foldl_dictAdd_one (l : List (String × String))
    (d0 : List (String × Int)) (v : String) :
    pyGet v (l.foldl (fun d e => dictAdd d e.2 1) d0) =
      (pyGet v d0).map (fun x => x + (countTo l v : Int)) := by
  induction l generalizing d0 with
  | nil =>
      simp only [List.foldl_nil, countTo, List.countP_nil]
      cases pyGet v d0 <;> simp
  | cons e rest ih =>
      simp only [List.foldl_cons, ih, pyGet_dictAdd]
      cases hd : pyGet v d0 with
      | none => simp
      | some x =>
          simp only [Option.map_some', Option.map_map]
          by_cases h : v = e.2
          · have he : ¬ e.2 ≠ v := by simp [h.symm]
            simp only [countTo, List.countP_cons, Function.comp, if_pos h]
            simp only [Option.map_some', Option.some.injEq]
            have : (decide (e.2 = v)) = true := by simp [h.symm]
            simp [this]
            omega
          · have he : ¬ e.2 = v := fun hh => h hh.symm
            simp only [countTo, List.countP_cons, Function.comp, if_neg h]
            simp [he]

theorem foldl_buildStep_split (l : List (String × String))
    (g0 : List (String × List String)) (d0 : List (String × Int)) :
    l.foldl buildStep (g0, d0) =
      (l.foldl (fun g e => graphAdd g e.1 e.2) g0,
       l.foldl (fun d e => dictAdd d e.2 1) d0) := by
  induction l generalizing g0 d0 with
  | nil => rfl
  | cons e rest ih => simp only [List.foldl_cons, buildStep, ih]

/-- The graph component of the build, fully characterized. -/
theorem built_graph_char (acts : List Activity) (u : String) :
    graphGet ((entries acts).foldl buildStep ([], buildInDegree0 acts)).1 u =
      ((entries acts).filter (fun e => decide (e.1 = u))).map Prod.snd := by
  rw [foldl_buildStep_split]
  simpa [graphGet, pyGet] using
    graphGet_foldl_graphAdd (entries acts) [] u

/-- The in-degree component of the build, fully characterized. -/
theorem built_indegree_char (acts : List Activity) (v : String) :
    pyGet v ((entries acts).foldl buildStep ([], buildInDegree0 acts)).2 =
      if v ∈ actNames acts then some ((countTo (entries acts) v : Int))
      else none := by
  rw [foldl_buildStep_split]
  simp only [pyGet_foldl_dictAdd_one, pyGet_buildInDegree0]
  by_cases h : v ∈ actNames acts <;> simp [h]

theorem keys_foldl_dictAdd (l : List (String × String))
    (d0 : List (String × Int)) :
    ((l.foldl (fun d e => dictAdd d e.2 1) d0).map Prod.fst) =
      d0.map Prod.fst := by
  induction l generalizing d0 with
  | nil => rfl
  | cons e rest ih => simp only [List.foldl_cons, ih, keys_dictAdd]

theorem nodup_keys_built (acts : List Activity) :
    (((entries acts).foldl buildStep ([], buildInDegree0 acts)).2.map
      Prod.fst).Nodup := by
  rw [foldl_buildStep_split]
  simpa [keys_foldl_dictAdd] using nodup_keys_buildInDegree0 acts

/-! ## Counting lemmas for `unemit` -/

theorem countP_split {α : Type} (p q : α → Bool) (l : List α) :
    l.countP p = l.countP (fun a => p a && q a) + l.countP (fun a => p a && !q a) := by
  induction l with
  | nil => simp
  | cons a rest ih =>
      simp only [List.countP_cons]
      cases hp : p a <;> cases hq : q a <;> simp [hp, hq] <;> omega

theorem unemit_append_singleton (E : List (String × String))
    (out : List String) (node : String) (hnode : node ∉ out) (v : String) :
    unemit E out v =
      unemit E (out ++ [node]) v +
        E.countP (fun e => decide (e.2 = v) && decide (e.1 = node)) := by
  rw [unemit,
    countP_split (fun e => decide (e.2 = v) && decide (e.1 ∉ out))
      (fun e => decide (e.1 = node)) E]
  have h1 : E.countP
      (fun e => (decide (e.2 = v) && decide (e.1 ∉ out)) && decide (e.1 = node)) =
      E.countP (fun e => decide (e.2 = v) && decide (e.1 = node)) := by
    apply List.countP_congr
    intro e _
    by_cases hn : e.1 = node
    · have : e.1 ∉ out := hn ▸ hnode
      simp [hn, this, hnode]
    · simp [hn]
  have h2 : E.countP
      (fun e => (decide (e.2 = v) && decide (e.1 ∉ out)) && !decide (e.1 = node)) =
      unemit E (out ++ [node]) v := by
    apply List.countP_congr
    intro e _
    by_cases hn : e.1 = node
    · simp [hn, hnode]
    · by_cases ho : e.1 ∈ out <;> simp [hn, ho]
  rw [h1, h2]
  omega

theorem unemit_le_of_append (E : List (String × String)) (out out' : List String)
    (v : String) : unemit E (out ++ out') v ≤ unemit E out v := by
  apply List.countP_mono_left
  intro e _ he
  simp only [Bool.and_eq_true, decide_eq_true_eq] at he ⊢
  exact ⟨he.1, fun hm => he.2 (List.mem_append_left out' hm)⟩

theorem unemit_eq_zero_iff (E : List (String × String)) (out : List String)
    (v : String) :
    unemit E out v = 0 ↔ ∀ e ∈ E, e.2 = v → e.1 ∈ out := by
  simp [unemit, List.countP_eq_zero]

theorem unemit_pos_exists (E : List (String × String)) (out : List String)
    (v : String) (h : unemit E out v ≠ 0) :
    ∃ e ∈ E, e.2 = v ∧ e.1 ∉ out := by
  by_contra hc
  push_neg at hc
  exact h ((unemit_eq_zero_iff E out v).mpr (fun e he hv => hc e he hv))

/-! ## Characterizing the neighbor loop -/

theorem processNeighbors_fst (ns : List String) (d : List (String × Int))
    (q : List String) :
    (processNeighbors d q ns).1 =
      ns.foldl (fun d n => dictAdd d n (-1)) d := by
  induction ns generalizing d q with
  | nil => rfl
  | cons n rest ih =>
      simp only [processNeighbors, List.foldl_cons, decOne_fst, ih]

/-- The names enqueued (in order) while running the neighbor loop on `ns`
from in-degree state `d`. -/
def pnNew (d : List (String × Int)) : List String → List String
  | [] => []
  | n :: rest =>
      (if pyGet n (dictAdd d n (-1)) = some 0 then [n] else []) ++
      pnNew (dictAdd d n (-1)) rest

theorem processNeighbors_snd (ns : List String) (d : List (String × Int))
    (q : List String) :
    (processNeighbors d q ns).2 = q ++ pnNew d ns := by
  induction ns generalizing d q with
  | nil => simp [processNeighbors, pnNew]
  | cons n rest ih =>
      simp only [processNeighbors, pnNew]
      rw [show (decOne d q n).1 = dictAdd d n (-1) from decOne_fst d q n]
      by_cases h : pyGet n (dictAdd d n (-1)) = some 0
      · have h2 : (decOne d q n).2 = q ++ [n] := by
          simp [decOne, h]
        rw [h2, ih, if_pos h, List.append_assoc]
      · have h2 : (decOne d q n).2 = q := by
          simp only [decOne]
          cases hg : pyGet n (dictAdd d n (-1)) with
          | none => rfl
          | some x =>
              have : ¬ x = 0 := fun hx => h (hx ▸ hg)
              simp [this]
        rw [h2, ih, if_neg h]
        simp

theorem pyGet_foldl_dictAdd_negOne (ns : List String)
    (d : List (String × Int)) (v : String) :
    pyGet v (ns.foldl (fun d n => dictAdd d n (-1)) d) =
      (pyGet v d).map (fun x => x - (ns.count v : Int)) := by
  induction ns generalizing d with
  | nil =>
      simp only [List.foldl_nil, List.count_nil]
      cases pyGet v d <;> simp
  | cons n rest ih =>
      simp only [List.foldl_cons, ih, pyGet_dictAdd]
      cases hd : pyGet v d with
      | none => simp
      | some x =>
          simp only [Option.map_some', Option.map_map, Function.comp]
          by_cases h : v = n
          · subst h
            simp only [if_pos rfl, List.count_cons_self, Option.some.injEq]
            push_cast
            ring
          · simp only [if_neg h, List.count_cons_of_ne h]

theorem pyGet_isSome_iff {α : Type} (d : List (String × α)) (v : String) :
    (∃ x, pyGet v d = some x) ↔ v ∈ d.map Prod.fst := by
  induction d with
  | nil => simp [pyGet]
  | cons kv rest ih =>
      by_cases h : v = kv.1
      · subst h; simp [pyGet]
      · simp [pyGet, h, ih]

theorem keys_foldl_dictAdd_negOne (ns : List String)
    (d : List (String × Int)) :
    ((ns.foldl (fun d n => dictAdd d n (-1)) d).map Prod.fst) =
      d.map Prod.fst := by
  induction ns generalizing d with
  | nil => rfl
  | cons n rest ih => simp only [List.foldl_cons, ih, keys_dictAdd]

theorem pnNew_positive (ns : List String) :
    ∀ (d : List (String × Int)) (v : String), v ∈ pnNew d ns →
      ∃ k, pyGet v d = some k ∧ 1 ≤ k := by
  induction ns with
  | nil => intro d v h; simp [pnNew] at h
  | cons n rest ih =>
      intro d v h
      simp only [pnNew, List.mem_append] at h
      rcases h with h | h
      · have hz : pyGet n (dictAdd d n (-1)) = some 0 ∧ v = n := by
          by_cases hc : pyGet n (dictAdd d n (-1)) = some 0
          · simp [hc] at h; exact ⟨hc, h⟩
          · simp [hc] at h
        obtain ⟨hz, rfl⟩ := hz
        exact ⟨1, pyGet_eq_one_of_dec_zero d v hz, le_refl 1⟩
      · obtain ⟨k, hk, hk1⟩ := ih (dictAdd d n (-1)) v h
        rw [pyGet_dictAdd] at hk
        cases hd : pyGet v d with
        | none => rw [hd] at hk; simp at hk
        | some x =>
            rw [hd] at hk
            simp only [Option.map_some', Option.some.injEq] at hk
            refine ⟨x, rfl, ?_⟩
            by_cases hv : v = n
            · rw [if_pos hv] at hk; omega
            · rw [if_neg hv] at hk; omega

theorem pnNew_nodup (ns : List String) :
    ∀ (d : List (String × Int)), (pnNew d ns).Nodup := by
  induction ns with
  | nil => intro d; simp [pnNew]
  | cons n rest ih =>
      intro d
      simp only [pnNew]
      by_cases hc : pyGet n (dictAdd d n (-1)) = some 0
      · rw [if_pos hc]
        simp only [List.singleton_append, List.nodup_cons]
        refine ⟨fun hmem => ?_, ih _⟩
        obtain ⟨k, hk, hk1⟩ := pnNew_positive rest _ n hmem
        rw [hc] at hk
        simp at hk
        omega
      · rw [if_neg hc]
        simpa using ih _

theorem pnNew_final_nonpos (ns : List String) :
    ∀ (d : List (String × Int)) (v : String), v ∈ pnNew d ns →
      ∃ k, pyGet v (ns.foldl (fun d n => dictAdd d n (-1)) d) = some k ∧
        k ≤ 0 := by
  induction ns with
  | nil => intro d v h; simp [pnNew] at h
  | cons n rest ih =>
      intro d v h
      simp only [pnNew, List.mem_append] at h
      simp only [List.foldl_cons]
      rcases h with h | h
      · have hz : pyGet n (dictAdd d n (-1)) = some 0 ∧ v = n := by
          by_cases hc : pyGet n (dictAdd d n (-1)) = some 0
          · simp [hc] at h; exact ⟨hc, h⟩
          · simp [hc] at h
        obtain ⟨hz, rfl⟩ := hz
        rw [pyGet_foldl_dictAdd_negOne, hz]
        exact ⟨-(rest.count v : Int), by simp, by omega⟩
      · exact ih _ v h

theorem pnNew_complete (ns : List String) :
    ∀ (d : List (String × Int)) (v : String) (c : Int),
      pyGet v d = some c → 1 ≤ c → c ≤ (ns.count v : Int) →
      v ∈ pnNew d ns := by
  induction ns with
  | nil => intro d v c _ h1 h2; simp at h2; omega
  | cons n rest ih =>
      intro d v c hd h1 h2
      simp only [pnNew, List.mem_append]
      by_cases hv : v = n
      · subst hv
        have hd2 : pyGet v (dictAdd d v (-1)) = some (c - 1) := by
          rw [pyGet_dictAdd, hd]
          simp
          ring
        by_cases hc : c = 1
        · subst hc
          left
          have : pyGet v (dictAdd d v (-1)) = some 0 := by
            rw [hd2]; norm_num
          simp [this]
        · right
          have h2' : (c - 1) ≤ (rest.count v : Int) := by
            rw [List.count_cons_self] at h2
            push_cast at h2
            omega
          exact ih _ v (c - 1) hd2 (by omega) h2'
      · right
        have hd2 : pyGet v (dictAdd d n (-1)) = some c := by
          rw [pyGet_dictAdd, hd]
          simp [hv]
        rw [List.count_cons_of_ne hv] at h2
        exact ih _ v c hd2 h1 h2

theorem pnNew_subset (ns : List String) :
    ∀ (d : List (String × Int)) (v : String), v ∈ pnNew d ns → v ∈ ns := by
  induction ns with
  | nil => intro d v h; simp [pnNew] at h
  | cons n rest ih =>
      intro d v h
      simp only [pnNew, List.mem_append] at h
      rcases h with h | h
      · by_cases hc : pyGet n (dictAdd d n (-1)) = some 0
        · simp [hc] at h; simp [h]
        · simp [hc] at h
      · exact List.mem_cons_of_mem n (ih _ v h)

theorem mem_filter_keys_pyGet {α : Type} (d : List (String × α))
    (p : String × α → Bool) (v : String)
    (hnd : (d.map Prod.fst).Nodup) (h : v ∈ (d.filter p).map Prod.fst) :
    ∃ x, pyGet v d = some x ∧ p (v, x) = true := by
  induction d with
  | nil => simp at h
  | cons kv rest ih =>
      obtain ⟨k, y⟩ := kv
      simp only [List.map_cons, List.nodup_cons] at hnd
      by_cases hv : v = k
      · subst hv
        refine ⟨y, by simp [pyGet], ?_⟩
        by_cases hp : p (v, y) = true
        · exact hp
        · exfalso
          rw [List.filter_cons] at h
          rw [if_neg (by simpa using hp)] at h
          have : v ∈ rest.map Prod.fst :=
            (List.Sublist.map Prod.fst (List.filter_sublist rest)).subset h
          exact hnd.1 this
      · rw [List.filter_cons] at h
        by_cases hp : p (k, y) = true
        · rw [if_pos hp] at h
          simp only [List.map_cons, List.mem_cons] at h
          rcases h with h | h
          · exact absurd h hv
          · obtain ⟨x, hx, hpx⟩ := ih hnd.2 h
            exact ⟨x, by simp [pyGet, hv, hx], hpx⟩
        · rw [if_neg hp] at h
          obtain ⟨x, hx, hpx⟩ := ih hnd.2 h
          exact ⟨x, by simp [pyGet, hv, hx], hpx⟩

theorem pyGet_mem_filter_keys {α : Type} (d : List (String × α))
    (p : String × α → Bool) (v : String) (x : α)
    (h : pyGet v d = some x) (hp : p (v, x) = true) :
    v ∈ (d.filter p).map Prod.fst := by
  induction d with
  | nil => simp [pyGet] at h
  | cons kv rest ih =>
      obtain ⟨k, y⟩ := kv
      by_cases hv : v = k
      · subst hv
        simp [pyGet] at h
        subst h
        rw [List.filter_cons, if_pos hp]
        simp
      · simp only [pyGet, if_neg hv] at h
        rw [List.filter_cons]
        by_cases hpk : p (k, y) = true
        · rw [if_pos hpk]
          simpa using Or.inr (by simpa using ih h)
        · rw [if_neg hpk]
          exact ih h

/-- The multiplicity of `v` among `node`'s neighbors equals the number of
dependency entries `node → v`. -/
theorem count_neighbors (acts : List Activity) (g : List (String × List String))
    (hg : ∀ u, graphGet g u =
      ((entries acts).filter (fun e => decide (e.1 = u))).map Prod.snd)
    (node v : String) :
    (graphGet g node).count v =
      (entries acts).countP
        (fun e => decide (e.2 = v) && decide (e.1 = node)) := by
  rw [hg node, List.count_eq_countP, List.countP_map, List.countP_filter]
  apply List.countP_congr
  intro e _
  simp [Function.comp, and_comm]

theorem kahn_master (acts : List Activity) (g : List (String × List String))
    (hg : ∀ u, graphGet g u =
      ((entries acts).filter (fun e => decide (e.1 = u))).map Prod.snd) :
    ∀ (q : List String) (d : List (String × Int)) (out : List String),
    (∀ v, pyGet v d =
        if v ∈ actNames acts
        then some ((unemit (entries acts) out v : Int)) else none) →
    (out ++ q).Nodup →
    (∀ v ∈ out ++ q, v ∈ actNames acts) →
    (∀ v ∈ out ++ q, unemit (entries acts) out v = 0) →
    (∀ v ∈ actNames acts, v ∉ out → v ∉ q →
        unemit (entries acts) out v ≠ 0) →
    ((out ++ kahnLoop g q d).Nodup ∧
     (∀ v ∈ out ++ kahnLoop g q d, v ∈ actNames acts) ∧
     (∀ e ∈ entries acts, e.2 ∈ out ++ kahnLoop g q d → e.2 ∉ out →
        e.1 ∈ out ++ kahnLoop g q d ∧
        List.indexOf e.1 (out ++ kahnLoop g q d) <
          List.indexOf e.2 (out ++ kahnLoop g q d)) ∧
     (∀ v ∈ actNames acts, v ∉ out ++ kahnLoop g q d →
        ∃ e ∈ entries acts, e.2 = v ∧ e.1 ∉ out ++ kahnLoop g q d)) := by
  intro q d
  induction q, d using kahnLoop.induct g with
  | case1 d =>
      intro out hlook hnd hnm hdone hpend
      simp only [kahnLoop, List.append_nil] at hnd hnm hdone ⊢
      refine ⟨hnd, hnm, ?_, ?_⟩
      · intro e _ h2 h2n
        exact absurd h2 h2n
      · intro v hv hvout
        exact unemit_pos_exists _ _ _ (hpend v hv hvout (List.not_mem_nil v))
  | case2 node rest d ih =>
      intro out hlook hnd hnm hdone hpend
      rw [processNeighbors_fst, processNeighbors_snd] at ih
      simp only [kahnLoop, processNeighbors_fst, processNeighbors_snd]
      -- basic structure of the old state
      have hnode_q : node ∈ out ++ node :: rest := by simp
      have hnode_names : node ∈ actNames acts := hnm node hnode_q
      have hdone_node : unemit (entries acts) out node = 0 := hdone node hnode_q
      have hnd' := hnd
      rw [List.nodup_append] at hnd'
      have hnode_out : node ∉ out := fun h => hnd'.2.2 h (List.mem_cons_self node rest)
      have hnode_rest : node ∉ rest := (List.nodup_cons.mp hnd'.2.1).1
      -- the new in-degree state is exactly the counters for out ++ [node]
      have hlook' : ∀ v,
          pyGet v (List.foldl (fun d n => dictAdd d n (-1)) d (graphGet g node)) =
            if v ∈ actNames acts
            then some ((unemit (entries acts) (out ++ [node]) v : Int))
            else none := by
        intro v
        rw [pyGet_foldl_dictAdd_negOne, hlook v]
        by_cases hv : v ∈ actNames acts
        · rw [if_pos hv, if_pos hv]
          simp only [Option.map_some', Option.some.injEq]
          have hsplit := unemit_append_singleton (entries acts) out node hnode_out v
          rw [count_neighbors acts g hg node v]
          omega
        · rw [if_neg hv, if_neg hv]
          simp
      -- newly enqueued names are fresh and are real vertices
      have hfresh : ∀ v ∈ pnNew d (graphGet g node), v ∉ out ++ node :: rest := by
        intro v hvD hvmem
        obtain ⟨k, hk, hk1⟩ := pnNew_positive (graphGet g node) d v hvD
        have h0 := hdone v hvmem
        rw [hlook v] at hk
        by_cases hv : v ∈ actNames acts
        · rw [if_pos hv] at hk
          simp only [Option.some.injEq] at hk
          omega
        · rw [if_neg hv] at hk
          exact Option.noConfusion hk
      have hDnames : ∀ v ∈ pnNew d (graphGet g node), v ∈ actNames acts := by
        intro v hvD
        obtain ⟨k, hk, _⟩ := pnNew_positive (graphGet g node) d v hvD
        by_contra hv
        rw [hlook v, if_neg hv] at hk
        exact Option.noConfusion hk
      -- invariants for the next state
      have hnd2 : ((out ++ [node]) ++ (rest ++ pnNew d (graphGet g node))).Nodup := by
        have hshape : (out ++ [node]) ++ (rest ++ pnNew d (graphGet g node)) =
            (out ++ node :: rest) ++ pnNew d (graphGet g node) := by simp
        rw [hshape]
        exact List.Nodup.append hnd (pnNew_nodup (graphGet g node) d)
          (fun a ha haD => hfresh a haD ha)
      have hnm2 : ∀ v ∈ (out ++ [node]) ++ (rest ++ pnNew d (graphGet g node)),
          v ∈ actNames acts := by
        intro v hv
        simp only [List.mem_append, List.mem_singleton] at hv
        rcases hv with (hv | hv) | hv | hv
        · exact hnm v (List.mem_append_left _ hv)
        · subst hv; exact hnode_names
        · exact hnm v (List.mem_append_right _ (List.mem_cons_of_mem _ hv))
        · exact hDnames v hv
      have hdone2 : ∀ v ∈ (out ++ [node]) ++ (rest ++ pnNew d (graphGet g node)),
          unemit (entries acts) (out ++ [node]) v = 0 := by
        intro v hv
        simp only [List.mem_append, List.mem_singleton] at hv
        have hle := unemit_le_of_append (entries acts) out [node] v
        rcases hv with (hv | hv) | hv | hv
        · have := hdone v (List.mem_append_left _ hv); omega
        · subst hv
          have := hdone_node; omega
        · have := hdone v (List.mem_append_right _ (List.mem_cons_of_mem _ hv))
          omega
        · obtain ⟨k, hk, hk0⟩ := pnNew_final_nonpos (graphGet g node) d v hv
          rw [hlook' v, if_pos (hDnames v hv)] at hk
          simp only [Option.some.injEq] at hk
          omega
      have hpend2 : ∀ v ∈ actNames acts, v ∉ out ++ [node] →
          v ∉ rest ++ pnNew d (graphGet g node) →
          unemit (entries acts) (out ++ [node]) v ≠ 0 := by
        intro v hv hvo hvq hcontra
        simp only [List.mem_append, List.mem_singleton, not_or] at hvo hvq
        have hvout : v ∉ out := hvo.1
        have hvnode : v ≠ node := hvo.2
        have hvrest : v ∉ rest := hvq.1
        have hvD : v ∉ pnNew d (graphGet g node) := hvq.2
        have hold : unemit (entries acts) out v ≠ 0 :=
          hpend v hv hvout (by simp [hvnode, hvrest])
        have hsplit := unemit_append_singleton (entries acts) out node hnode_out v
        apply hvD
        apply pnNew_complete (graphGet g node) d v
          ((unemit (entries acts) out v : Int))
        · rw [hlook v, if_pos hv]
        · omega
        · rw [count_neighbors acts g hg node v]
          omega
      obtain ⟨P1, P2, P3, P4⟩ := ih (out ++ [node]) hlook' hnd2 hnm2 hdone2 hpend2
      have hfin : out ++ node :: kahnLoop g
            (rest ++ pnNew d (graphGet g node))
            (List.foldl (fun d n => dictAdd d n (-1)) d (graphGet g node)) =
          (out ++ [node]) ++ kahnLoop g
            (rest ++ pnNew d (graphGet g node))
            (List.foldl (fun d n => dictAdd d n (-1)) d (graphGet g node)) := by
        simp
      refine ⟨by rw [hfin]; exact P1, by rw [hfin]; exact P2, ?_, ?_⟩
      · -- ordering
        intro e he hmem hnout
        by_cases hen : e.2 = node
        · have heup : e.1 ∈ out :=
            (unemit_eq_zero_iff (entries acts) out node).mp hdone_node e he hen
          constructor
          · exact List.mem_append_left _ heup
          · rw [hen]
            rw [List.indexOf_append_of_mem heup,
              List.indexOf_append_of_not_mem hnode_out,
              List.indexOf_cons_self]
            simpa using (List.indexOf_lt_length).mpr heup
        · have hmem' : e.2 ∈ (out ++ [node]) ++ kahnLoop g
              (rest ++ pnNew d (graphGet g node))
              (List.foldl (fun d n => dictAdd d n (-1)) d (graphGet g node)) := by
            rw [← hfin]; exact hmem
          have hnout' : e.2 ∉ out ++ [node] := by simp [hnout, hen]
          obtain ⟨hm, hlt⟩ := P3 e he hmem' hnout'
          rw [hfin]
          exact ⟨hm, hlt⟩
      · -- completeness at the end
        intro v hv hvfin
        rw [hfin] at hvfin
        obtain ⟨e, he, he2, he1⟩ := P4 v hv hvfin
        rw [hfin]
        exact ⟨e, he, he2, he1⟩

/-- The four fundamental properties of `topological_sort`: no duplicates,
only real vertex names, dependency entries of emitted vertices are emitted
earlier, and a vertex left out has a dependency entry whose upstream is also
left out. -/
theorem topological_sort_props (acts : List Activity) :
    (topological_sort acts).Nodup ∧
    (∀ v ∈ topological_sort acts, v ∈ actNames acts) ∧
    (∀ e ∈ entries acts, e.2 ∈ topological_sort acts →
       e.1 ∈ topological_sort acts ∧
       List.indexOf e.1 (topological_sort acts) <
         List.indexOf e.2 (topological_sort acts)) ∧
    (∀ v ∈ actNames acts, v ∉ topological_sort acts →
       ∃ e ∈ entries acts, e.2 = v ∧ e.1 ∉ topological_sort acts) := by
  have hts : topological_sort acts = kahnLoop
      ((entries acts).foldl buildStep ([], buildInDegree0 acts)).1
      ((((entries acts).foldl buildStep ([], buildInDegree0 acts)).2.filter
         (fun kv => decide (kv.2 = 0))).map Prod.fst)
      ((entries acts).foldl buildStep ([], buildInDegree0 acts)).2 := rfl
  have hkeys : ∀ v x,
      pyGet v ((entries acts).foldl buildStep ([], buildInDegree0 acts)).2 =
        some x → v ∈ actNames acts := by
    intro v x h
    by_contra hv
    rw [built_indegree_char acts v, if_neg hv] at h
    exact Option.noConfusion h
  have hmaster := kahn_master acts
    ((entries acts).foldl buildStep ([], buildInDegree0 acts)).1
    (built_graph_char acts)
    ((((entries acts).foldl buildStep ([], buildInDegree0 acts)).2.filter
       (fun kv => decide (kv.2 = 0))).map Prod.fst)
    ((entries acts).foldl buildStep ([], buildInDegree0 acts)).2
    []
    (by
      intro v
      rw [built_indegree_char acts v, unemit_nil_out])
    (by
      simp only [List.nil_append]
      exact List.Nodup.sublist
        (List.Sublist.map Prod.fst (List.filter_sublist _))
        (nodup_keys_built acts))
    (by
      simp only [List.nil_append]
      intro v hv
      obtain ⟨x, hx, _⟩ := mem_filter_keys_pyGet _ _ v (nodup_keys_built acts) hv
      exact hkeys v x hx)
    (by
      simp only [List.nil_append]
      intro v hv
      obtain ⟨x, hx, hp⟩ := mem_filter_keys_pyGet _ _ v (nodup_keys_built acts) hv
      simp only [decide_eq_true_eq] at hp
      subst hp
      have hvn : v ∈ actNames acts := hkeys v _ hx
      rw [built_indegree_char acts v, if_pos hvn] at hx
      simp only [Option.some.injEq] at hx
      rw [unemit_nil_out]
      omega)
    (by
      intro v hv _ hvq hcontra
      apply hvq
      apply pyGet_mem_filter_keys _ _ v (0 : Int)
      · rw [built_indegree_char acts v, if_pos hv]
        rw [unemit_nil_out] at hcontra
        simp [hcontra]
      · simp)
  rw [hts]
  simp only [List.nil_append] at hmaster
  obtain ⟨hA, hB, hC, hD⟩ := hmaster
  exact ⟨hA, hB, fun e he hm => hC e he hm (List.not_mem_nil e.2), hD⟩

/-! ## Characterizing exactly which vertices the resolver emits -/

/-- A name is *supported* when it is a vertex of the scope and every
dependency entry pointing at it (from any activity carrying that name) has a
supported upstream: the least set closed under this rule — i.e. the names
whose transitive same-scope dependencies all exist and bottom out without
meeting a cycle. -/
inductive Supported (acts : List Activity) : String → Prop where
  | intro (v : String) (hv : v ∈ actNames acts)
      (hup : ∀ u, (u, v) ∈ entries acts → Supported acts u) :
      Supported acts v

theorem Supported.mem_names {acts : List Activity} {v : String}
    (h : Supported acts v) : v ∈ actNames acts := by
  cases h; assumption

theorem supported_of_mem_topological_sort (acts : List Activity) :
    ∀ v ∈ topological_sort acts, Supported acts v := by
  obtain ⟨hnd, hnames, horder, hcomp⟩ := topological_sort_props acts
  have hstrong : ∀ n, ∀ v ∈ topological_sort acts,
      List.indexOf v (topological_sort acts) ≤ n → Supported acts v := by
    intro n
    induction n with
    | zero =>
        intro v hv hle
        refine Supported.intro v (hnames v hv) (fun u hu => ?_)
        obtain ⟨_, hlt⟩ := horder (u, v) hu hv
        have hlt' : List.indexOf u (topological_sort acts) <
            List.indexOf v (topological_sort acts) := hlt
        omega
    | succ n ih =>
        intro v hv hle
        refine Supported.intro v (hnames v hv) (fun u hu => ?_)
        obtain ⟨hum, hlt⟩ := horder (u, v) hu hv
        have hlt' : List.indexOf u (topological_sort acts) <
            List.indexOf v (topological_sort acts) := hlt
        have hum' : u ∈ topological_sort acts := hum
        exact ih u hum' (by omega)
  intro v hv
  exact hstrong (List.indexOf v (topological_sort acts)) v hv (Nat.le_refl _)

theorem mem_topological_sort_of_supported (acts : List Activity) :
    ∀ v, Supported acts v → v ∈ topological_sort acts := by
  intro v hsup
  induction hsup with
  | intro v hv hup ih =>
      by_contra hvn
      obtain ⟨e, he, he2, he1⟩ := (topological_sort_props acts).2.2.2 v hv hvn
      apply he1
      apply ih e.1
      have : (e.1, e.2) ∈ entries acts := by simpa using he
      rwa [he2] at this

/-- The resolver emits exactly the supported names. -/
theorem topological_sort_char (acts : List Activity) (v : String) :
    v ∈ topological_sort acts ↔ Supported acts v :=
  ⟨supported_of_mem_topological_sort acts v,
   mem_topological_sort_of_supported acts v⟩

/-! ## The spec-side graph predicates -/

/-- Unique activity names within the scope. -/
def UniqueNames (acts : List Activity) : Prop := (actNames acts).Nodup

/-- Every dependency entry references a name present in the same list. -/
def ClosedDeps (acts : List Activity) : Prop :=
  ∀ a ∈ acts, ∀ u ∈ depNames a, u ∈ actNames acts

/-- The scope's dependency graph is a DAG, phrased as the standard finite
characterization: every nonempty set of vertices contains a vertex with no
upstream inside the set.  (The lemma `acyclic_no_closed_cycle` below checks
this against the cycle-free reading.) -/
def Acyclic (acts : List Activity) : Prop :=
  ∀ S ∈ (actNames acts).toFinset.powerset, S.Nonempty →
    ∃ v ∈ S, ∀ u ∈ S, (u, v) ∉ entries acts

instance (acts : List Activity) : Decidable (UniqueNames acts) :=
  inferInstanceAs (Decidable ((actNames acts).Nodup))

instance (acts : List Activity) : Decidable (ClosedDeps acts) :=
  inferInstanceAs
    (Decidable (∀ a ∈ acts, ∀ u ∈ depNames a, u ∈ actNames acts))

instance (acts : List Activity) : Decidable (Acyclic acts) :=
  inferInstanceAs
    (Decidable (∀ S ∈ (actNames acts).toFinset.powerset, S.Nonempty →
      ∃ v ∈ S, ∀ u ∈ S, (u, v) ∉ entries acts))

/-- Sanity: an `Acyclic` scope has no nonempty set of names each of which has
an upstream inside the set — in particular no dependency cycle. -/
theorem acyclic_no_closed_cycle (acts : List Activity) (ha : Acyclic acts)
    (C : List String) (hne : C ≠ [])
    (hcyc : ∀ v ∈ C, ∃ u ∈ C, (u, v) ∈ entries acts) : False := by
  have hsub : C.toFinset ∈ (actNames acts).toFinset.powerset := by
    rw [Finset.mem_powerset]
    intro x hx
    rw [List.mem_toFinset] at hx
    obtain ⟨u, _, hue⟩ := hcyc x hx
    rw [List.mem_toFinset]
    exact snd_mem_actNames_of_mem_entries acts (u, x) hue
  have hnonempty : C.toFinset.Nonempty := by
    cases C with
    | nil => exact absurd rfl hne
    | cons c rest => exact ⟨c, by simp⟩
  obtain ⟨v, hvS, hvmin⟩ := ha C.toFinset hsub hnonempty
  rw [List.mem_toFinset] at hvS
  obtain ⟨u, huC, hue⟩ := hcyc v hvS
  exact hvmin u (List.mem_toFinset.mpr huC) hue

theorem all_supported_of_closed_acyclic (acts : List Activity)
    (hclosed : ClosedDeps acts) (hacyclic : Acyclic acts) :
    ∀ v ∈ actNames acts, Supported acts v := by
  classical
  by_contra hn
  push_neg at hn
  obtain ⟨v0, hv0, hv0n⟩ := hn
  have hSsub : ((actNames acts).toFinset.filter
      (fun v => ¬ Supported acts v)) ∈ (actNames acts).toFinset.powerset :=
    Finset.mem_powerset.mpr (Finset.filter_subset _ _)
  have hSne : ((actNames acts).toFinset.filter
      (fun v => ¬ Supported acts v)).Nonempty :=
    ⟨v0, Finset.mem_filter.mpr ⟨List.mem_toFinset.mpr hv0, hv0n⟩⟩
  obtain ⟨v, hvS, hvmin⟩ := hacyclic _ hSsub hSne
  have hvnames : v ∈ actNames acts :=
    List.mem_toFinset.mp (Finset.mem_filter.mp hvS).1
  have hvnsup : ¬ Supported acts v := (Finset.mem_filter.mp hvS).2
  apply hvnsup
  refine Supported.intro v hvnames (fun u hu => ?_)
  by_contra hunsup
  have hunames : u ∈ actNames acts := by
    obtain ⟨a, ha, hn, hd⟩ := (mem_entries_iff acts u v).mp hu
    exact hclosed a ha u hd
  exact hvmin u
    (Finset.mem_filter.mpr ⟨List.mem_toFinset.mpr hunames, hunsup⟩) hu

/-! ## Success of the name-to-activity lookup -/

theorem pyGet_actDict_isSome (acts : List Activity) (v : String)
    (hv : v ∈ actNames acts) :
    ∃ a, pyGet v (acts.foldl (fun d a => pySet d a.name a) []) = some a := by
  have hgen : ∀ (l : List Activity) (d0 : List (String × Activity)),
      (v ∈ actNames l ∨ ∃ a, pyGet v d0 = some a) →
      ∃ a, pyGet v (l.foldl (fun d a => pySet d a.name a) d0) = some a := by
    intro l
    induction l with
    | nil =>
        intro d0 h
        rcases h with h | h
        · simp [actNames] at h
        · exact h
    | cons a rest ih =>
        intro d0 h
        simp only [List.foldl_cons]
        apply ih
        rcases h with h | h
        · simp only [actNames, List.map_cons, List.mem_cons] at h
          rcases h with h | h
          · right
            exact ⟨a, by rw [pyGet_pySet, if_pos h]⟩
          · left; exact h
        · obtain ⟨b, hb⟩ := h
          right
          rw [pyGet_pySet]
          by_cases hv2 : v = a.name
          · exact ⟨a, by rw [if_pos hv2]⟩
          · exact ⟨b, by rw [if_neg hv2]; exact hb⟩
  exact hgen acts [] (Or.inl hv)

theorem lookupNames_ok (dict : List (String × Activity)) (l : List String)
    (h : ∀ v ∈ l, ∃ a, pyGet v dict = some a) :
    ∃ r, lookupNames dict l = Except.ok r := by
  induction l with
  | nil => exact ⟨[], rfl⟩
  | cons n rest ih =>
      obtain ⟨a, ha⟩ := h n (List.mem_cons_self n rest)
      obtain ⟨r, hr⟩ := ih (fun v hv => h v (List.mem_cons_of_mem n hv))
      refine ⟨a :: r, ?_⟩
      simp [lookupNames, ha, hr, Except.map]

/-- The final list comprehension never raises: every emitted name is a key of
`activity_dict`. -/
theorem sort_activities_ok (acts : List Activity) :
    ∃ l, sort_activities_by_dependency acts = Except.ok l := by
  have hts := (topological_sort_props acts).2.1
  exact lookupNames_ok _ _
    (fun v hv => pyGet_actDict_isSome acts v (hts v hv))

/-! ## The resolver claims -/

/-- Claim C1: on a scope whose dependency graph is acyclic and whose every
dependency entry names an activity of the same list, every upstream name `u`
listed by an activity `a` is placed strictly before `a`'s name in the
resolver's output. -/
theorem resolver_orders_dependencies (acts : List Activity)
    (hclosed : ClosedDeps acts) (hacyclic : Acyclic acts) :
    ∀ a ∈ acts, ∀ u ∈ depNames a,
      u ∈ topological_sort acts ∧
      a.name ∈ topological_sort acts ∧
      List.indexOf u (topological_sort acts) <
        List.indexOf a.name (topological_sort acts) := by
  intro a ha u hu
  have hent : (u, a.name) ∈ entries acts :=
    (mem_entries_iff acts u a.name).mpr ⟨a, ha, rfl, hu⟩
  have hname : a.name ∈ actNames acts := List.mem_map_of_mem Activity.name ha
  have hmem : a.name ∈ topological_sort acts :=
    mem_topological_sort_of_supported acts a.name
      (all_supported_of_closed_acyclic acts hclosed hacyclic a.name hname)
  obtain ⟨hu1, hu2⟩ := (topological_sort_props acts).2.2.1 (u, a.name) hent hmem
  exact ⟨hu1, hmem, hu2⟩

theorem resolver_orders_dependencies_witness :
    "A" ∈ topological_sort fifoScenarioInput ∧
    (Activity.mk "C" none none (some [Dep.mk "A" []]) none none).name ∈
      topological_sort fifoScenarioInput ∧
    List.indexOf "A" (topological_sort fifoScenarioInput) <
      List.indexOf
        (Activity.mk "C" none none (some [Dep.mk "A" []]) none none).name
        (topological_sort fifoScenarioInput) :=
  resolver_orders_dependencies fifoScenarioInput (by decide) (by decide)
    (Activity.mk "C" none none (some [Dep.mk "A" []]) none none)
    (List.mem_cons_self _ _) "A" (by decide)

/-- Claim C2: on a scope with unique names whose dependency graph is a DAG
over names of the list, the resolver's output is a permutation of the input's
names. -/
theorem resolver_complete_permutation (acts : List Activity)
    (huniq : UniqueNames acts) (hclosed : ClosedDeps acts)
    (hacyclic : Acyclic acts) :
    (topological_sort acts).Perm (actNames acts) := by
  obtain ⟨hnd, hnames, _, _⟩ := topological_sort_props acts
  apply List.perm_of_nodup_nodup_toFinset_eq hnd huniq
  ext v
  simp only [List.mem_toFinset]
  constructor
  · exact hnames v
  · intro hv
    exact mem_topological_sort_of_supported acts v
      (all_supported_of_closed_acyclic acts hclosed hacyclic v hv)

theorem resolver_complete_permutation_witness :
    (topological_sort fifoScenarioInput).Perm (actNames fifoScenarioInput) :=
  resolver_complete_permutation fifoScenarioInput (by decide) (by decide)
    (by decide)

/-- Claim C10: for every input with unique names — cycles and dangling
references included — the output has no duplicate name, contains only names
of the input, and the final name-to-activity lookup never raises. -/
theorem resolver_output_within_input (acts : List Activity)
    (huniq : UniqueNames acts) :
    (topological_sort acts).Nodup ∧
    (∀ v ∈ topological_sort acts, v ∈ actNames acts) ∧
    ∃ l, sort_activities_by_dependency acts = Except.ok l := by
  obtain ⟨hnd, hnames, _, _⟩ := topological_sort_props acts
  exact ⟨hnd, hnames, sort_activities_ok acts⟩

theorem resolver_output_within_input_witness :
    (topological_sort cycleWithDependentInput).Nodup ∧
    (∀ v ∈ topological_sort cycleWithDependentInput,
        v ∈ actNames cycleWithDependentInput) ∧
    ∃ l, sort_activities_by_dependency cycleWithDependentInput =
      Except.ok l :=
  resolver_output_within_input cycleWithDependentInput (by decide)

/-- A set of names each of which has an upstream inside the set (e.g. the
vertex set of a dependency cycle) contains no supported name. -/
theorem not_supported_of_closed_cycle (acts : List Activity) (C : List String)
    (hcyc : ∀ v ∈ C, ∃ u ∈ C, (u, v) ∈ entries acts) :
    ∀ v, Supported acts v → v ∉ C := by
  intro v hsup
  induction hsup with
  | intro v hv hup ih =>
      intro hvC
      obtain ⟨u, huC, hue⟩ := hcyc v hvC
      exact ih u hue huC

/-- Claim C4 (amended): a cycle among a subset of a scope's activities drops
every activity of that subset; every activity whose transitive same-scope
dependency closure exists and avoids every cycle still appears, and every
dependency entry of an appearing activity is ordered before it. -/
theorem cycle_containment_amended (acts : List Activity) (C : List String)
    (hne : C ≠ [])
    (hcyc : ∀ v ∈ C, ∃ u ∈ C, (u, v) ∈ entries acts) :
    (∀ v ∈ C, v ∉ topological_sort acts) ∧
    (∀ v, Supported acts v → v ∈ topological_sort acts) ∧
    (∀ e ∈ entries acts, e.2 ∈ topological_sort acts →
       e.1 ∈ topological_sort acts ∧
       List.indexOf e.1 (topological_sort acts) <
         List.indexOf e.2 (topological_sort acts)) := by
  refine ⟨?_, mem_topological_sort_of_supported acts,
    (topological_sort_props acts).2.2.1⟩
  intro v hvC hvts
  exact not_supported_of_closed_cycle acts C hcyc v
    (supported_of_mem_topological_sort acts v hvts) hvC

/-- The cycle-containment witness scope: an independent activity `E` next to
the two-cycle `A <-> B`. -/
def cycleIsolatedInput : List Activity :=
  [Activity.mk "E" none none none none none,
   Activity.mk "A" none none (some [Dep.mk "B" []]) none none,
   Activity.mk "B" none none (some [Dep.mk "A" []]) none none]

theorem cycle_containment_amended_witness :
    "A" ∉ topological_sort cycleIsolatedInput ∧
    "E" ∈ topological_sort cycleIsolatedInput :=
  ⟨(cycle_containment_amended cycleIsolatedInput ["A", "B"] (by decide)
      (by decide)).1 "A" (by decide),
   (cycle_containment_amended cycleIsolatedInput ["A", "B"] (by decide)
      (by decide)).2.1 "E"
     (Supported.intro "E" (by decide)
       (fun u hu => absurd hu (by
         simp [cycleIsolatedInput, entries, depNames, actNames,
           Activity.name, Activity.dependsOn])))⟩

/-- Claim C5 (amended): when an activity `a` references a name absent from
the scope, the resolver still raises nothing (and the final lookup succeeds),
`a` is omitted from the output, every activity whose transitive same-scope
dependency closure exists and is cycle-free still appears, and dependency
entries of appearing activities are ordered before them. -/
theorem missing_ref_amended (acts : List Activity) (a : Activity)
    (ha : a ∈ acts) (hmiss : ∃ u ∈ depNames a, u ∉ actNames acts) :
    (∃ l, sort_activities_by_dependency acts = Except.ok l) ∧
    a.name ∉ topological_sort acts ∧
    (∀ v, Supported acts v → v ∈ topological_sort acts) ∧
    (∀ e ∈ entries acts, e.2 ∈ topological_sort acts →
       e.1 ∈ topological_sort acts ∧
       List.indexOf e.1 (topological_sort acts) <
         List.indexOf e.2 (topological_sort acts)) := by
  refine ⟨sort_activities_ok acts, ?_,
    mem_topological_sort_of_supported acts,
    (topological_sort_props acts).2.2.1⟩
  intro hmem
  obtain ⟨u, hu, hunames⟩ := hmiss
  have hsup := supported_of_mem_topological_sort acts a.name hmem
  cases hsup with
  | intro _ hv hup =>
      have hent : (u, a.name) ∈ entries acts :=
        (mem_entries_iff acts u a.name).mpr ⟨a, ha, rfl, hu⟩
      exact hunames (hup u hent).mem_names

theorem missing_ref_amended_witness :
    (∃ l, sort_activities_by_dependency twoMissingRefsInput = Except.ok l) ∧
    (Activity.mk "A" none none (some [Dep.mk "X" []]) none none).name ∉
      topological_sort twoMissingRefsInput :=
  ⟨(missing_ref_amended twoMissingRefsInput _ (List.mem_cons_self _ _)
      ⟨"X", by decide, by decide⟩).1,
   (missing_ref_amended twoMissingRefsInput _ (List.mem_cons_self _ _)
      ⟨"X", by decide, by decide⟩).2.1⟩

/-! ## The renderer claims -/

/-- The nested activity list stored under one container key, when present. -/
def keyLists (tp : List (String × TPVal)) (key : String) :
    List (List Activity) :=
  match pyGet key tp with
  | some (TPVal.activities l) => [l]
  | _ => []

/-- The nested activity lists of a switch's cases. -/
def caseLists (tp : List (String × TPVal)) : List (List Activity) :=
  match pyGet "cases" tp with
  | some (TPVal.cases cs) => cs.map (fun c => c.activities.getD [])
  | _ => []

/-- All nested activity lists the container block of lines 124-142 discovers
inside `typeProperties`, in discovery order; empty for a non-container. -/
def discoveredActivityLists (a : Activity) : List (List Activity) :=
  if isContainerType a.type then
    match a.typeProperties with
    | none => []
    | some tp =>
        keyLists tp "ifTrueActivities" ++ keyLists tp "ifFalseActivities" ++
        keyLists tp "activities" ++ caseLists tp
  else []

theorem string_append_extend (x y s pre post inner : String)
    (h : s = pre ++ inner ++ post) :
    x ++ s ++ y = (x ++ pre) ++ inner ++ (post ++ y) := by
  subst h
  simp [String.append_assoc]

theorem keyRow_ok_inv (fuel : Nat) (tp : List (String × TPVal))
    (key label s : String) (h : keyRow fuel tp key label = Except.ok s) :
    (s = "" ∧ keyLists tp key = []) ∨
    (∃ l inner, keyLists tp key = [l] ∧
      generate_activity_html fuel l = Except.ok inner ∧
      s = "<tr><td>" ++ label ++ "</td><td>" ++ inner ++ "</td></tr>") := by
  simp only [keyRow] at h
  split at h
  · rename_i heq
    simp only [Except.ok.injEq] at h
    left
    exact ⟨h.symm, by simp [keyLists, heq]⟩
  · rename_i l heq
    split at h
    · exact Except.noConfusion h
    · rename_i inner hgen
      simp only [Except.ok.injEq] at h
      right
      exact ⟨l, inner, by simp [keyLists, heq], hgen, h.symm⟩
  · exact Except.noConfusion h

theorem keyRow_covers (fuel : Nat) (tp : List (String × TPVal))
    (key label s : String) (h : keyRow fuel tp key label = Except.ok s) :
    ∀ l ∈ keyLists tp key,
      ∃ inner, generate_activity_html fuel l = Except.ok inner ∧
        ∃ pre post, s = pre ++ inner ++ post := by
  intro l hl
  rcases keyRow_ok_inv fuel tp key label s h with ⟨_, hk⟩ | ⟨l', inner, hk, hg, hs⟩
  · rw [hk] at hl; simp at hl
  · rw [hk] at hl
    simp only [List.mem_singleton] at hl
    subst hl
    exact ⟨inner, hg, "<tr><td>" ++ label ++ "</td><td>", "</td></tr>", by
      rw [hs]⟩

theorem caseList_covers (fuel : Nat) (cs : List SwitchCase) (s : String)
    (h : caseList fuel cs = Except.ok s) :
    ∀ c ∈ cs,
      ∃ inner,
        generate_activity_html fuel (c.activities.getD []) =
          Except.ok inner ∧
        ∃ pre post, s = pre ++ inner ++ post := by
  induction cs generalizing s with
  | nil => intro c hc; simp at hc
  | cons c0 rest ih =>
      intro c hc
      simp only [caseList] at h
      split at h
      · exact Except.noConfusion h
      · rename_i inner0 hgen0
        split at h
        · exact Except.noConfusion h
        · rename_i r hrest
          simp only [Except.ok.injEq] at h
          rcases List.mem_cons.mp hc with hc0 | hcr
          · subst hc0
            exact ⟨inner0, hgen0,
              "<tr><td>Case: " ++ optPyStr c.value ++ "</td><td>",
              "</td></tr>" ++ r, by rw [← h]; simp [String.append_assoc]⟩
          · obtain ⟨inner, hginner, pre, post, hsplit⟩ := ih r hrest c hcr
            exact ⟨inner, hginner,
              ("<tr><td>Case: " ++ optPyStr c0.value ++ "</td><td>" ++
                inner0 ++ "</td></tr>") ++ pre, post, by
                  rw [← h, hsplit]; simp [String.append_assoc]⟩

theorem casesRows_covers (fuel : Nat) (tp : List (String × TPVal)) (s : String)
    (h : casesRows fuel tp = Except.ok s) :
    ∀ l ∈ caseLists tp,
      ∃ inner, generate_activity_html fuel l = Except.ok inner ∧
        ∃ pre post, s = pre ++ inner ++ post := by
  intro l hl
  simp only [caseLists] at hl
  simp only [casesRows] at h
  split at h
  · rename_i heq
    simp only [heq] at hl
    simp at hl
  · rename_i cs heq
    simp only [heq] at hl
    simp only [List.mem_map] at hl
    obtain ⟨c, hc, hcl⟩ := hl
    obtain ⟨inner, hginner, pre, post, hsplit⟩ :=
      caseList_covers fuel cs s h c hc
    exact ⟨inner, by rw [← hcl]; exact hginner, pre, post, hsplit⟩
  · exact Except.noConfusion h

/-- Claim C6: the renderer recurses if and only if the activity's type is a
recognized container type — a non-container activity contributes no nested
rows and no error, and an `ok` result of the container block embeds the
recursive resolve-and-render of every discovered nested activity list. -/
theorem renderer_recursion_iff_container (fuel : Nat) (a : Activity)
    (out : String) :
    (isContainerType a.type = false → nestedRows fuel a = Except.ok "") ∧
    (nestedRows fuel a = Except.ok out →
      ∀ l ∈ discoveredActivityLists a,
        ∃ s, generate_activity_html fuel l = Except.ok s ∧
          ∃ pre post, out = pre ++ s ++ post) := by
  constructor
  · intro h
    simp [nestedRows, h]
  · intro hok l hl
    by_cases hcont : isContainerType a.type
    · simp only [discoveredActivityLists, if_pos hcont] at hl
      simp only [nestedRows, if_pos hcont] at hok
      split at hok
      · exact Except.noConfusion hok
      · rename_i tp heq
        simp only [heq] at hl
        split at hok
        · exact Except.noConfusion hok
        · rename_i s1 hk1
          split at hok
          · exact Except.noConfusion hok
          · rename_i s2 hk2
            split at hok
            · exact Except.noConfusion hok
            · rename_i s3 hk3
              split at hok
              · exact Except.noConfusion hok
              · rename_i s4 hk4
                simp only [Except.ok.injEq] at hok
                rcases List.mem_append.mp hl with hl' | hl4
                · rcases List.mem_append.mp hl' with hl'' | hl3
                  · rcases List.mem_append.mp hl'' with hl1 | hl2
                    · obtain ⟨inner, hg, pre, post, hs⟩ :=
                        keyRow_covers fuel tp _ _ s1 hk1 l hl1
                      refine ⟨inner, hg, pre, post ++ s2 ++ s3 ++ s4, ?_⟩
                      rw [← hok, hs]
                      simp [String.append_assoc]
                    · obtain ⟨inner, hg, pre, post, hs⟩ :=
                        keyRow_covers fuel tp _ _ s2 hk2 l hl2
                      refine ⟨inner, hg, s1 ++ pre, post ++ s3 ++ s4, ?_⟩
                      rw [← hok, hs]
                      simp [String.append_assoc]
                  · obtain ⟨inner, hg, pre, post, hs⟩ :=
                      keyRow_covers fuel tp _ _ s3 hk3 l hl3
                    refine ⟨inner, hg, s1 ++ s2 ++ pre, post ++ s4, ?_⟩
                    rw [← hok, hs]
                    simp [String.append_assoc]
                · obtain ⟨inner, hg, pre, post, hs⟩ :=
                    casesRows_covers fuel tp s4 hk4 l hl4
                  refine ⟨inner, hg, s1 ++ s2 ++ s3 ++ pre, post, ?_⟩
                  rw [← hok, hs]
                  simp [String.append_assoc]
    · simp only [discoveredActivityLists, hcont, if_false] at hl
      simp at hl

theorem renderer_recursion_iff_container_witness :
    nestedRows 1 (Activity.mk "L" none (some "Copy") none none none) =
      Except.ok "" ∧
    (∃ s, generate_activity_html 1 ([] : List Activity) = Except.ok s ∧
      ∃ pre post,
        "<tr><td>If True Activities</td><td></td></tr>" = pre ++ s ++ post) := by
  constructor
  · exact (renderer_recursion_iff_container 1
      (Activity.mk "L" none (some "Copy") none none none) "").1 (by decide)
  · have hok : nestedRows 1 (Activity.mk "I" none (some "IfCondition") none
        none (some [("ifTrueActivities", TPVal.activities [])])) =
        Except.ok "<tr><td>If True Activities</td><td></td></tr>" := by
      simp [nestedRows, isContainerType, containerTypeNames, Activity.type,
        Activity.typeProperties, keyRow, casesRows, caseList, pyGet,
        generate_activity_html, sort_activities_by_dependency, lookupNames,
        topological_sort, entries, buildStep, buildInDegree0, actNames,
        kahnLoop, renderSections]
    exact (renderer_recursion_iff_container 1 _ _).2 hok []
      (by simp [discoveredActivityLists, keyLists, caseLists, pyGet,
        isContainerType, containerTypeNames, Activity.type,
        Activity.typeProperties])

/-! ## The tree-to-table transform (claim C8) -/

/-- A scalar JSON value: neither a mapping nor an ordered sequence. -/
def isScalarJson : Json → Bool
  | .obj _ => false
  | .arr _ => false
  | _ => true

theorem convRows_cons_head (k' : String) (v' : Json) (rest : List (String × Json))
    (sup : Bool) :
    ∃ hd, convRows ((k', v') :: rest) sup = hd ++ convRows rest sup := by
  cases v' with
  | obj f =>
      exact ⟨"<tr>" ++ ("<td>" ++ k' ++ "</td>") ++
        ("<td>" ++ convert_to_nested_table_html (Json.obj f) sup ++ "</td>") ++
        "</tr>", by simp only [convRows]⟩
  | arr items =>
      exact ⟨"<tr>" ++ ("<td>" ++ k' ++ "</td>") ++
        ("<td>" ++ convert_to_nested_table_html (Json.arr items) sup ++
          "</td>") ++ "</tr>", by simp only [convRows]⟩
  | str s =>
      exact ⟨"<tr>" ++ ("<td>" ++ k' ++ "</td>") ++
        ("<td>" ++ pyStr (Json.str s) ++ "</td>") ++ "</tr>", by
          simp only [convRows]⟩
  | int n =>
      exact ⟨"<tr>" ++ ("<td>" ++ k' ++ "</td>") ++
        ("<td>" ++ pyStr (Json.int n) ++ "</td>") ++ "</tr>", by
          simp only [convRows]⟩
  | bool b =>
      exact ⟨"<tr>" ++ ("<td>" ++ k' ++ "</td>") ++
        ("<td>" ++ pyStr (Json.bool b) ++ "</td>") ++ "</tr>", by
          simp only [convRows]⟩
  | null =>
      exact ⟨"<tr>" ++ ("<td>" ++ k' ++ "</td>") ++
        ("<td>" ++ pyStr Json.null ++ "</td>") ++ "</tr>", by
          simp only [convRows]⟩

theorem convRows_scalar_covers (kvs : List (String × Json)) (k : String)
    (v : Json) (sup : Bool) (hmem : (k, v) ∈ kvs)
    (hscal : isScalarJson v = true) :
    ∃ pre post, convRows kvs sup =
      pre ++ ("<td>" ++ pyStr v ++ "</td>") ++ post := by
  induction kvs with
  | nil => simp at hmem
  | cons kv rest ih =>
      obtain ⟨k', v'⟩ := kv
      rcases List.mem_cons.mp hmem with hkv | hkv
      · rw [Prod.mk.injEq] at hkv
        obtain ⟨hk, hv⟩ := hkv
        subst hk
        subst hv
        cases v with
        | obj fields => simp [isScalarJson] at hscal
        | arr items => simp [isScalarJson] at hscal
        | str s =>
            exact ⟨"<tr>" ++ ("<td>" ++ k ++ "</td>"),
              "</tr>" ++ convRows rest sup, by
                simp only [convRows, String.append_assoc]⟩
        | int n =>
            exact ⟨"<tr>" ++ ("<td>" ++ k ++ "</td>"),
              "</tr>" ++ convRows rest sup, by
                simp only [convRows, String.append_assoc]⟩
        | bool b =>
            exact ⟨"<tr>" ++ ("<td>" ++ k ++ "</td>"),
              "</tr>" ++ convRows rest sup, by
                simp only [convRows, String.append_assoc]⟩
        | null =>
            exact ⟨"<tr>" ++ ("<td>" ++ k ++ "</td>"),
              "</tr>" ++ convRows rest sup, by
                simp only [convRows, String.append_assoc]⟩
      · obtain ⟨pre, post, hsplit⟩ := ih hkv
        obtain ⟨hd, hhd⟩ := convRows_cons_head k' v' rest sup
        refine ⟨hd ++ pre, post, ?_⟩
        rw [hhd, hsplit]
        simp [String.append_assoc]

theorem convRows_nested_covers (kvs : List (String × Json)) (k : String)
    (v : Json) (sup : Bool) (hmem : (k, v) ∈ kvs)
    (hnest : isScalarJson v = false) :
    ∃ pre post, convRows kvs sup =
      pre ++ ("<td>" ++ convert_to_nested_table_html v sup ++ "</td>") ++
        post := by
  induction kvs with
  | nil => simp at hmem
  | cons kv rest ih =>
      obtain ⟨k', v'⟩ := kv
      rcases List.mem_cons.mp hmem with hkv | hkv
      · rw [Prod.mk.injEq] at hkv
        obtain ⟨hk, hv⟩ := hkv
        subst hk
        subst hv
        cases v with
        | str s => simp [isScalarJson] at hnest
        | int n => simp [isScalarJson] at hnest
        | bool b => simp [isScalarJson] at hnest
        | null => simp [isScalarJson] at hnest
        | obj fields =>
            exact ⟨"<tr>" ++ ("<td>" ++ k ++ "</td>"),
              "</tr>" ++ convRows rest sup, by
                simp only [convRows, String.append_assoc]⟩
        | arr items =>
            exact ⟨"<tr>" ++ ("<td>" ++ k ++ "</td>"),
              "</tr>" ++ convRows rest sup, by
                simp only [convRows, String.append_assoc]⟩
      · obtain ⟨pre, post, hsplit⟩ := ih hkv
        obtain ⟨hd, hhd⟩ := convRows_cons_head k' v' rest sup
        refine ⟨hd ++ pre, post, ?_⟩
        rw [hhd, hsplit]
        simp [String.append_assoc]

theorem convItems_covers (items : List Json) (sup : Bool) :
    ∀ (j i : Nat) (h : i < items.length),
      ∃ pre post, convItems items j sup =
        pre ++ ("<tr><td>Item " ++ toString (j + i + 1) ++ "</td><td>" ++
          convert_to_nested_table_html (items.get ⟨i, h⟩) sup ++
          "</td></tr>") ++ post := by
  induction items with
  | nil => intro j i h; simp at h
  | cons item rest ih =>
      intro j i h
      cases i with
      | zero =>
          refine ⟨"", convItems rest (j + 1) sup, ?_⟩
          simp [convItems, String.append_assoc]
      | succ i' =>
          obtain ⟨pre, post, hsplit⟩ := ih (j + 1) i'
            (by simpa using Nat.lt_of_succ_lt_succ h)
          refine ⟨("<tr><td>Item " ++ toString (j + 1) ++ "</td><td>" ++
            convert_to_nested_table_html item sup ++ "</td></tr>") ++ pre,
            post, ?_⟩
          have harith : j + 1 + i' + 1 = j + (i' + 1) + 1 := by omega
          simp only [convItems, List.get_cons_succ]
          rw [hsplit, harith]
          simp [String.append_assoc]

/-- Claim C8 (amended): mapping rows render a scalar value textually and a
value that is itself a mapping or sequence recursively; sequence rows label
position `i` as `Item i` and always render the element recursively — in
particular a scalar (at top level or as a sequence element) renders as an
empty nested table, not as its textual representation. -/
theorem nested_table_transform_amended :
    (∀ (kvs : List (String × Json)) (k : String) (v : Json) (sup : Bool),
      (k, v) ∈ kvs → isScalarJson v = true →
      ∃ pre post, convert_to_nested_table_html (Json.obj kvs) sup =
        pre ++ ("<td>" ++ pyStr v ++ "</td>") ++ post) ∧
    (∀ (kvs : List (String × Json)) (k : String) (v : Json) (sup : Bool),
      (k, v) ∈ kvs → isScalarJson v = false →
      ∃ pre post, convert_to_nested_table_html (Json.obj kvs) sup =
        pre ++ ("<td>" ++ convert_to_nested_table_html v sup ++ "</td>") ++
          post) ∧
    (∀ (items : List Json) (sup : Bool) (i : Nat) (h : i < items.length),
      ∃ pre post, convert_to_nested_table_html (Json.arr items) sup =
        pre ++ ("<tr><td>Item " ++ toString (i + 1) ++ "</td><td>" ++
          convert_to_nested_table_html (items.get ⟨i, h⟩) sup ++
          "</td></tr>") ++ post) ∧
    (∀ (v : Json) (sup : Bool), isScalarJson v = true →
      convert_to_nested_table_html v sup =
        "<table class=" ++ sglq ++ "nested-table" ++ sglq ++ "></table>") := by
  refine ⟨?_, ?_, ?_, ?_⟩
  · intro kvs k v sup hmem hscal
    obtain ⟨pre, post, hsplit⟩ := convRows_scalar_covers kvs k v sup hmem hscal
    refine ⟨("<table class=" ++ sglq ++ "nested-table" ++ sglq ++ ">") ++ pre,
      post ++ "</table>", ?_⟩
    simp [convert_to_nested_table_html, hsplit, String.append_assoc]
  · intro kvs k v sup hmem hnest
    obtain ⟨pre, post, hsplit⟩ := convRows_nested_covers kvs k v sup hmem hnest
    refine ⟨("<table class=" ++ sglq ++ "nested-table" ++ sglq ++ ">") ++ pre,
      post ++ "</table>", ?_⟩
    simp [convert_to_nested_table_html, hsplit, String.append_assoc]
  · intro items sup i h
    obtain ⟨pre, post, hsplit⟩ := convItems_covers items sup 0 i h
    refine ⟨("<table class=" ++ sglq ++ "nested-table" ++ sglq ++ ">") ++ pre,
      post ++ "</table>", ?_⟩
    have : (0 : Nat) + i + 1 = i + 1 := by omega
    rw [this] at hsplit
    simp [convert_to_nested_table_html, hsplit, String.append_assoc]
  · intro v sup hscal
    cases v with
    | obj fields => simp [isScalarJson] at hscal
    | arr items => simp [isScalarJson] at hscal
    | str s => simp [convert_to_nested_table_html]; decide
    | int n => simp [convert_to_nested_table_html]; decide
    | bool b => simp [convert_to_nested_table_html]; decide
    | null => simp [convert_to_nested_table_html]; decide

theorem nested_table_transform_amended_witness :
    (∃ pre post,
      convert_to_nested_table_html (Json.obj [("a", Json.int 3)]) false =
        pre ++ ("<td>" ++ pyStr (Json.int 3) ++ "</td>") ++ post) ∧
    (∃ pre post,
      convert_to_nested_table_html
          (Json.obj [("b", Json.arr [Json.int 2])]) false =
        pre ++ ("<td>" ++
          convert_to_nested_table_html (Json.arr [Json.int 2]) false ++
          "</td>") ++ post) ∧
    (∃ pre post,
      convert_to_nested_table_html (Json.arr [Json.int 5]) false =
        pre ++ ("<tr><td>Item " ++ toString (0 + 1) ++ "</td><td>" ++
          convert_to_nested_table_html
            (([Json.int 5] : List Json).get ⟨0, by decide⟩) false ++
          "</td></tr>") ++ post) ∧
    convert_to_nested_table_html (Json.int 7) false =
      "<table class=" ++ sglq ++ "nested-table" ++ sglq ++ "></table>" :=
  ⟨nested_table_transform_amended.1 [("a", Json.int 3)] "a" (Json.int 3) false
      (List.mem_singleton_self _) rfl,
   nested_table_transform_amended.2.1 [("b", Json.arr [Json.int 2])] "b"
      (Json.arr [Json.int 2]) false (List.mem_singleton_self _) rfl,
   nested_table_transform_amended.2.2.1 [Json.int 5] false 0 (by decide),
   nested_table_transform_amended.2.2.2 (Json.int 7) false rfl⟩
